import Mathlib

/-!
Verification of the polysat forbidden-interval engine
(src/sat/smt/polysat/forbidden_intervals.{h,cpp}) and the enabled rules of
the polysat saturation engine.

The pdd (polynomial decision diagram) library is external to the verified
core; we embed its interface as canonical multivariate polynomials over
fixed-width machine words: a polynomial is a list of (coefficient, monomial)
pairs, a monomial being a sorted list of variables (with multiplicity).
All arithmetic is performed modulo a modulus `M`, instantiated with `2 ^ w`
for bit-width `w` in the theorems.  All operations keep the representation
canonical (coefficients in `[1, M)`, monomials merged), mirroring the
canonicity of pdds, so syntactic pdd equality corresponds to list equality.
-/

namespace PolysatFI

/-- Monomials: a list of variables (with multiplicity). -/
abbrev Mon := List Nat

/-- Polynomials: a list of (coefficient, monomial) pairs. -/
abbrev Poly := List (Nat × Mon)

/-- Lexicographic strict order on monomials, used to keep polynomial
representations in a canonical term order. -/
def monLt : Mon → Mon → Bool
  | [], [] => false
  | [], _ :: _ => true
  | _ :: _, [] => false
  | a :: as, b :: bs => a < b || (a == b && monLt as bs)

/-- Insert the term `c * m` into a polynomial, merging with an existing
term with the same monomial, reducing the coefficient mod `M`, and dropping
zero terms. -/
def insertTerm (M : Nat) (c : Nat) (m : Mon) : Poly → Poly
  | [] => if c % M = 0 then [] else [(c % M, m)]
  | (c', m') :: rest =>
    if m = m' then
      (if (c + c') % M = 0 then rest else ((c + c') % M, m') :: rest)
    else if monLt m m' then
      (if c % M = 0 then (c', m') :: rest else (c % M, m) :: (c', m') :: rest)
    else (c', m') :: insertTerm M c m rest

/-- Polynomial addition (pdd `+`). -/
def addP (M : Nat) (p q : Poly) : Poly :=
  p.foldr (fun t acc => insertTerm M t.1 t.2 acc) q

/-- Multiplication of a polynomial by a scalar. -/
def smulP (M : Nat) (k : Nat) (p : Poly) : Poly :=
  p.foldr (fun t acc => insertTerm M (k * t.1) t.2 acc) []

/-- Polynomial negation (pdd unary `-`): multiplication by `M - 1 ≡ -1`. -/
def negP (M : Nat) (p : Poly) : Poly := smulP M (M - 1) p

/-- Polynomial subtraction (pdd `-`). -/
def subP (M : Nat) (p q : Poly) : Poly := addP M p (negP M q)

/-- Constant polynomial (pdd `mk_val`). -/
def constP (M : Nat) (k : Nat) : Poly := insertTerm M k [] []

/-- Variable polynomial (pdd `mk_var`). -/
def varP (x : Nat) : Poly := [(1, [x])]

/-- pdd `is_val()`: the polynomial is a constant. -/
def isVal : Poly → Bool
  | [] => true
  | [(_, [])] => true
  | _ => false

/-- pdd `val()`: the value of a constant polynomial. -/
def pval : Poly → Nat
  | (c, []) :: _ => c
  | _ => 0

/-- pdd `is_zero()`: the polynomial is the zero constant (canonically `[]`). -/
def isZeroP (p : Poly) : Bool := p = ([] : Poly)

/-- pdd `is_max()`: the polynomial is the constant `M - 1`. -/
def isMaxP (M : Nat) (p : Poly) : Bool := isVal p && pval p = M - 1

/-- pdd `degree(v)`: the maximal multiplicity of `v` in any monomial. -/
def degV (v : Nat) (p : Poly) : Nat :=
  p.foldr (fun t acc => max (t.2.count v) acc) 0

/-- pdd `factor(v, 1, q, e)`: split `p` as `q * v + e` where the terms of
`q` are the terms of `p` containing `v` (with one occurrence of `v`
removed), and `e` collects the terms free of `v`. -/
def factorV (v : Nat) : Poly → Poly × Poly
  | [] => ([], [])
  | (c, m) :: rest =>
    let qe := factorV v rest
    if m.count v = 0 then (qe.1, (c, m) :: qe.2)
    else ((c, m.erase v) :: qe.1, qe.2)

/-- Substitute the assigned variables of a monomial, returning the product
of the assigned values and the residual monomial. -/
def substMon (σ : Nat → Option Nat) (m : Mon) : Nat × Mon :=
  m.foldr (fun x km =>
    match σ x with
    | some a => (a * km.1, km.2)
    | none => (km.1, x :: km.2)) (1, [])

/-- `core::subst`: substitute the current partial assignment into a
polynomial and renormalize. -/
def substP (M : Nat) (σ : Nat → Option Nat) (p : Poly) : Poly :=
  p.foldr (fun t acc =>
    let km := substMon σ t.2
    insertTerm M (t.1 * km.1) km.2 acc) []

/-! ### Semantics: evaluation of polynomials under a total assignment -/

/-- Value of a monomial under a total assignment. -/
def evalMon (ρ : Nat → Nat) (m : Mon) : Nat :=
  m.foldr (fun x acc => ρ x * acc) 1

/-- Unreduced value of a polynomial under a total assignment. -/
def rawEval (ρ : Nat → Nat) (p : Poly) : Nat :=
  p.foldr (fun t acc => t.1 * evalMon ρ t.2 + acc) 0

/-- Value of a polynomial under a total assignment, reduced mod `M`. -/
def evalP (M : Nat) (ρ : Nat → Nat) (p : Poly) : Nat := rawEval ρ p % M

/-- A total model `ρ` agrees with the partial assignment `σ`. -/
def agrees (σ : Nat → Option Nat) (ρ : Nat → Nat) : Prop :=
  ∀ x a, σ x = some a → ρ x = a

/-! ### Homomorphism lemmas for the polynomial operations -/

@[simp] theorem rawEval_nil (ρ : Nat → Nat) : rawEval ρ ([] : Poly) = 0 := rfl

@[simp] theorem rawEval_cons (ρ : Nat → Nat) (c : Nat) (m : Mon) (p : Poly) :
    rawEval ρ ((c, m) :: p) = c * evalMon ρ m + rawEval ρ p := rfl

theorem rawEval_insertTerm (M : Nat) (ρ : Nat → Nat) (c : Nat) (m : Mon) :
    ∀ p : Poly, rawEval ρ (insertTerm M c m p) ≡ c * evalMon ρ m + rawEval ρ p [MOD M] := by
  intro p
  have hc : c % M * evalMon ρ m ≡ c * evalMon ρ m [MOD M] :=
    (Nat.mod_modEq c M).mul_right _
  induction p with
  | nil =>
    by_cases h : c % M = 0
    · have h0 : c * evalMon ρ m ≡ 0 [MOD M] := by
        calc c * evalMon ρ m ≡ c % M * evalMon ρ m [MOD M] := hc.symm
          _ = 0 := by rw [h]; ring
      simpa [insertTerm, h] using h0.symm
    · simpa [insertTerm, h] using hc
  | cons t rest ih =>
    obtain ⟨c', m'⟩ := t
    by_cases hm : m = m'
    · subst hm
      by_cases hz : (c + c') % M = 0
      · have h0 : (c + c') * evalMon ρ m ≡ 0 [MOD M] := by
          calc (c + c') * evalMon ρ m
              ≡ (c + c') % M * evalMon ρ m [MOD M] := ((Nat.mod_modEq _ M).mul_right _).symm
            _ = 0 := by rw [hz]; ring
        have h1 : (0 : Nat) + rawEval ρ rest ≡
            (c + c') * evalMon ρ m + rawEval ρ rest [MOD M] :=
          h0.symm.add_right _
        simp only [insertTerm, if_pos rfl, hz, if_pos rfl]
        calc rawEval ρ rest = 0 + rawEval ρ rest := by ring
          _ ≡ (c + c') * evalMon ρ m + rawEval ρ rest [MOD M] := h1
          _ = c * evalMon ρ m + rawEval ρ ((c', m) :: rest) := by
              simp only [rawEval_cons]; ring
      · have h1 : (c + c') % M * evalMon ρ m + rawEval ρ rest ≡
            (c + c') * evalMon ρ m + rawEval ρ rest [MOD M] :=
          ((Nat.mod_modEq _ M).mul_right _).add_right _
        simp only [insertTerm, if_pos rfl, hz, if_neg hz]
        calc rawEval ρ (((c + c') % M, m) :: rest)
            = (c + c') % M * evalMon ρ m + rawEval ρ rest := by simp only [rawEval_cons]
          _ ≡ (c + c') * evalMon ρ m + rawEval ρ rest [MOD M] := h1
          _ = c * evalMon ρ m + rawEval ρ ((c', m) :: rest) := by
              simp only [rawEval_cons]; ring
    · by_cases hlt : monLt m m'
      · by_cases hz : c % M = 0
        · have h0 : c * evalMon ρ m ≡ 0 [MOD M] := by
            calc c * evalMon ρ m ≡ c % M * evalMon ρ m [MOD M] := hc.symm
              _ = 0 := by rw [hz]; ring
          simp only [insertTerm, if_neg hm, hlt, if_pos rfl, hz]
          calc rawEval ρ ((c', m') :: rest)
              = 0 + rawEval ρ ((c', m') :: rest) := by ring
            _ ≡ c * evalMon ρ m + rawEval ρ ((c', m') :: rest) [MOD M] :=
                h0.symm.add_right _
        · simp only [insertTerm, if_neg hm, hlt, if_pos rfl, if_neg hz]
          calc rawEval ρ ((c % M, m) :: (c', m') :: rest)
              = c % M * evalMon ρ m + rawEval ρ ((c', m') :: rest) := by
                simp only [rawEval_cons]
            _ ≡ c * evalMon ρ m + rawEval ρ ((c', m') :: rest) [MOD M] :=
                hc.add_right _
      · simp only [insertTerm, if_neg hm, hlt, if_neg (Bool.false_ne_true)]
        calc rawEval ρ ((c', m') :: insertTerm M c m rest)
            = c' * evalMon ρ m' + rawEval ρ (insertTerm M c m rest) := by
              simp only [rawEval_cons]
          _ ≡ c' * evalMon ρ m' + (c * evalMon ρ m + rawEval ρ rest) [MOD M] :=
              ih.add_left _
          _ = c * evalMon ρ m + rawEval ρ ((c', m') :: rest) := by
              simp only [rawEval_cons]; ring

theorem rawEval_addP (M : Nat) (ρ : Nat → Nat) (p q : Poly) :
    rawEval ρ (addP M p q) ≡ rawEval ρ p + rawEval ρ q [MOD M] := by
  induction p with
  | nil => simpa [addP] using Nat.ModEq.refl (rawEval ρ q)
  | cons t rest ih =>
    obtain ⟨c, m⟩ := t
    calc rawEval ρ (addP M ((c, m) :: rest) q)
        = rawEval ρ (insertTerm M c m (addP M rest q)) := rfl
      _ ≡ c * evalMon ρ m + rawEval ρ (addP M rest q) [MOD M] :=
          rawEval_insertTerm M ρ c m _
      _ ≡ c * evalMon ρ m + (rawEval ρ rest + rawEval ρ q) [MOD M] := ih.add_left _
      _ = rawEval ρ ((c, m) :: rest) + rawEval ρ q := by
          simp only [rawEval_cons]; ring

theorem rawEval_smulP (M : Nat) (ρ : Nat → Nat) (k : Nat) (p : Poly) :
    rawEval ρ (smulP M k p) ≡ k * rawEval ρ p [MOD M] := by
  induction p with
  | nil => simpa [smulP] using Nat.ModEq.refl 0
  | cons t rest ih =>
    obtain ⟨c, m⟩ := t
    calc rawEval ρ (smulP M k ((c, m) :: rest))
        = rawEval ρ (insertTerm M (k * c) m (smulP M k rest)) := rfl
      _ ≡ k * c * evalMon ρ m + rawEval ρ (smulP M k rest) [MOD M] :=
          rawEval_insertTerm M ρ _ m _
      _ ≡ k * c * evalMon ρ m + k * rawEval ρ rest [MOD M] := ih.add_left _
      _ = k * rawEval ρ ((c, m) :: rest) := by simp only [rawEval_cons]; ring

theorem evalP_constP (M : Nat) (ρ : Nat → Nat) (k : Nat) :
    evalP M ρ (constP M k) = k % M := by
  unfold constP evalP
  by_cases h : k % M = 0
  · simp [insertTerm, h]
  · simp [insertTerm, h, evalMon, Nat.mod_mod_of_dvd]

theorem evalP_addP (M : Nat) (ρ : Nat → Nat) (p q : Poly) :
    evalP M ρ (addP M p q) = (evalP M ρ p + evalP M ρ q) % M := by
  unfold evalP
  have h := rawEval_addP M ρ p q
  unfold Nat.ModEq at h
  rw [h, Nat.add_mod]

theorem evalP_smulP (M : Nat) (ρ : Nat → Nat) (k : Nat) (p : Poly) :
    evalP M ρ (smulP M k p) = k * evalP M ρ p % M := by
  unfold evalP
  have h := rawEval_smulP M ρ k p
  unfold Nat.ModEq at h
  have h2 : k * (rawEval ρ p % M) % M = k * rawEval ρ p % M := by
    have := (Nat.mod_modEq (rawEval ρ p) M).mul_left k
    exact this
  rw [h, h2]

theorem evalP_negP (M : Nat) (hM : 0 < M) (ρ : Nat → Nat) (p : Poly) :
    rawEval ρ (negP M p) + rawEval ρ p ≡ 0 [MOD M] := by
  have h := rawEval_smulP M ρ (M - 1) p
  calc rawEval ρ (negP M p) + rawEval ρ p
      ≡ (M - 1) * rawEval ρ p + rawEval ρ p [MOD M] := h.add_right _
    _ = (M - 1 + 1) * rawEval ρ p := by ring
    _ ≡ 0 [MOD M] := by
        rw [Nat.sub_add_cancel hM]
        exact (Nat.mul_mod_right M _).trans (Nat.zero_mod M).symm

/-- The subtraction `p - q` evaluates to zero exactly when `p` and `q`
evaluate to the same value (for a positive modulus). -/
theorem evalP_subP_eq_zero (M : Nat) (hM : 0 < M) (ρ : Nat → Nat) (p q : Poly) :
    evalP M ρ (subP M p q) = 0 ↔ evalP M ρ p = evalP M ρ q := by
  unfold subP
  have hadd := rawEval_addP M ρ p (negP M q)
  have hneg := evalP_negP M hM ρ q
  unfold evalP
  constructor
  · intro h
    have e1 : rawEval ρ p + rawEval ρ (negP M q) ≡ 0 [MOD M] := by
      refine hadd.symm.trans ?_
      unfold Nat.ModEq
      rw [h, Nat.zero_mod]
    calc rawEval ρ p % M = (rawEval ρ p + 0) % M := by rw [Nat.add_zero]
      _ = (rawEval ρ p + (rawEval ρ (negP M q) + rawEval ρ q)) % M := by
          exact (hneg.add_left _).symm
      _ = (rawEval ρ p + rawEval ρ (negP M q) + rawEval ρ q) % M := by
          rw [Nat.add_assoc]
      _ = (0 + rawEval ρ q) % M := e1.add_right _
      _ = rawEval ρ q % M := by rw [Nat.zero_add]
  · intro h
    have h2 : rawEval ρ p + rawEval ρ (negP M q) ≡ rawEval ρ q + rawEval ρ (negP M q) [MOD M] :=
      Nat.ModEq.add_right _ (h : _ % M = _ % M)
    have h3 : rawEval ρ q + rawEval ρ (negP M q) ≡ 0 [MOD M] := by
      rw [Nat.add_comm]; exact hneg
    have := hadd.trans (h2.trans h3)
    simpa [Nat.ModEq] using this

/-- Agreement transfers `substMon` to evaluation: substituting the assigned
variables does not change the monomial's value under an agreeing model. -/
theorem evalMon_substMon (σ : Nat → Option Nat) (ρ : Nat → Nat) (h : agrees σ ρ)
    (m : Mon) : (substMon σ m).1 * evalMon ρ (substMon σ m).2 = evalMon ρ m := by
  induction m with
  | nil => simp [substMon, evalMon]
  | cons x rest ih =>
    unfold substMon at ih ⊢
    cases hx : σ x with
    | none => simp only [List.foldr, hx, evalMon, List.foldr] at ih ⊢; rw [← ih]; ring
    | some a =>
      have hρ : ρ x = a := h x a hx
      simp only [List.foldr, hx, evalMon, List.foldr] at ih ⊢
      rw [← ih, hρ]; ring

theorem evalP_substP (M : Nat) (σ : Nat → Option Nat) (ρ : Nat → Nat) (h : agrees σ ρ)
    (p : Poly) : evalP M ρ (substP M σ p) = evalP M ρ p := by
  unfold evalP
  suffices hs : rawEval ρ (substP M σ p) ≡ rawEval ρ p [MOD M] from hs
  induction p with
  | nil => exact Nat.ModEq.refl _
  | cons t rest ih =>
    obtain ⟨c, m⟩ := t
    calc rawEval ρ (substP M σ ((c, m) :: rest))
        = rawEval ρ (insertTerm M (c * (substMon σ m).1) (substMon σ m).2 (substP M σ rest)) := rfl
      _ ≡ c * (substMon σ m).1 * evalMon ρ (substMon σ m).2 + rawEval ρ (substP M σ rest) [MOD M] :=
          rawEval_insertTerm M ρ _ _ _
      _ ≡ c * (substMon σ m).1 * evalMon ρ (substMon σ m).2 + rawEval ρ rest [MOD M] :=
          ih.add_left _
      _ = c * evalMon ρ m + rawEval ρ rest := by
          rw [mul_assoc, evalMon_substMon σ ρ h m]
      _ = rawEval ρ ((c, m) :: rest) := rfl

/-- A monomial containing `v` evaluates to `ρ v` times the monomial with
one occurrence of `v` removed. -/
theorem evalMon_erase (ρ : Nat → Nat) (v : Nat) (m : Mon) (h : v ∈ m) :
    evalMon ρ m = ρ v * evalMon ρ (m.erase v) := by
  induction m with
  | nil => cases h
  | cons x rest ih =>
    by_cases hx : x = v
    · subst hx; simp [List.erase_cons_head, evalMon]
    · have hmem : v ∈ rest := by
        cases h with
        | head => exact absurd rfl hx
        | tail _ h' => exact h'
      rw [List.erase_cons_tail]
      · simp only [evalMon, List.foldr] at ih ⊢
        rw [ih hmem]; ring
      · simp [hx]

/-- `factor` identity: every polynomial splits as
`p = v * q + e` along the terms containing `v`. -/
theorem rawEval_factorV (ρ : Nat → Nat) (v : Nat) (p : Poly) :
    rawEval ρ p = ρ v * rawEval ρ (factorV v p).1 + rawEval ρ (factorV v p).2 := by
  induction p with
  | nil => simp [factorV]
  | cons t rest ih =>
    obtain ⟨c, m⟩ := t
    by_cases h0 : m.count v = 0
    · simp only [factorV, if_pos h0, rawEval_cons]
      rw [ih]; ring
    · have hv : v ∈ m := List.count_pos_iff.mp (by omega)
      simp only [factorV, if_neg h0, rawEval_cons]
      rw [evalMon_erase ρ v m hv, ih]; ring

theorem rawEval_isVal (ρ : Nat → Nat) (p : Poly) (h : isVal p = true) :
    rawEval ρ p = pval p := by
  match p with
  | [] => rfl
  | [(c, [])] => simp [rawEval, pval, evalMon]
  | [(c, x :: m)] => simp [isVal] at h
  | (c, m) :: t :: rest => simp [isVal] at h

/-! ### Well-formedness: canonical polynomials have coefficients in `[1, M)` -/

/-- All coefficients are nonzero and reduced mod `M` (canonical pdd form). -/
def wfP (M : Nat) (p : Poly) : Prop := ∀ t ∈ p, 0 < t.1 ∧ t.1 < M

theorem wfP_insertTerm (M : Nat) (hM : 0 < M) (c : Nat) (m : Mon) (p : Poly)
    (h : wfP M p) : wfP M (insertTerm M c m p) := by
  induction p with
  | nil =>
    by_cases hz : c % M = 0
    · simp [insertTerm, hz, wfP]
    · intro t ht
      simp [insertTerm, hz] at ht
      subst ht
      exact ⟨Nat.pos_of_ne_zero hz, Nat.mod_lt _ hM⟩
  | cons hd rest ih =>
    obtain ⟨c', m'⟩ := hd
    have hrest : wfP M rest := fun t ht => h t (List.mem_cons_of_mem _ ht)
    have hhd := h (c', m') (List.mem_cons_self _ _)
    by_cases hm : m = m'
    · subst hm
      by_cases hz : (c + c') % M = 0
      · simpa [insertTerm, hz] using hrest
      · intro t ht
        simp [insertTerm, hz] at ht
        rcases ht with ht | ht
        · subst ht; exact ⟨Nat.pos_of_ne_zero hz, Nat.mod_lt _ hM⟩
        · exact hrest t ht
    · by_cases hlt : monLt m m'
      · by_cases hz : c % M = 0
        · simpa [insertTerm, hm, hlt, hz] using h
        · intro t ht
          simp [insertTerm, hm, hlt, hz] at ht
          rcases ht with ht | ht | ht
          · subst ht; exact ⟨Nat.pos_of_ne_zero hz, Nat.mod_lt _ hM⟩
          · subst ht; exact hhd
          · exact hrest t ht
      · intro t ht
        simp [insertTerm, hm, hlt] at ht
        rcases ht with ht | ht
        · subst ht; exact hhd
        · exact ih hrest t ht

theorem wfP_addP (M : Nat) (hM : 0 < M) (p q : Poly) (hq : wfP M q) :
    wfP M (addP M p q) := by
  induction p with
  | nil => exact hq
  | cons t rest ih => exact wfP_insertTerm M hM _ _ _ ih

theorem wfP_smulP (M : Nat) (hM : 0 < M) (k : Nat) (p : Poly) :
    wfP M (smulP M k p) := by
  induction p with
  | nil => intro t ht; cases ht
  | cons t rest ih => exact wfP_insertTerm M hM _ _ _ ih

theorem wfP_substP (M : Nat) (hM : 0 < M) (σ : Nat → Option Nat) (p : Poly) :
    wfP M (substP M σ p) := by
  induction p with
  | nil => intro t ht; cases ht
  | cons t rest ih => exact wfP_insertTerm M hM _ _ _ ih

theorem wfP_constP (M : Nat) (hM : 0 < M) (k : Nat) : wfP M (constP M k) :=
  wfP_insertTerm M hM k [] [] (fun t ht => by cases ht)

theorem wfP_negP (M : Nat) (hM : 0 < M) (p : Poly) : wfP M (negP M p) :=
  wfP_smulP M hM _ p

theorem wfP_subP (M : Nat) (hM : 0 < M) (p q : Poly) :
    wfP M (subP M p q) := wfP_addP M hM _ _ (wfP_negP M hM q)

theorem wfP_factorV (M : Nat) (v : Nat) (p : Poly) (h : wfP M p) :
    wfP M (factorV v p).1 ∧ wfP M (factorV v p).2 := by
  induction p with
  | nil => exact ⟨(fun _ ht => nomatch ht), (fun _ ht => nomatch ht)⟩
  | cons t rest ih =>
    obtain ⟨c, m⟩ := t
    have hrest : wfP M rest := fun t ht => h t (List.mem_cons_of_mem _ ht)
    have hhd := h (c, m) (List.mem_cons_self _ _)
    obtain ⟨ih1, ih2⟩ := ih hrest
    by_cases h0 : m.count v = 0
    · refine ⟨by simpa [factorV, h0] using ih1, ?_⟩
      intro t ht
      simp only [factorV, if_pos h0, List.mem_cons] at ht
      rcases ht with ht | ht
      · subst ht; exact hhd
      · exact ih2 t ht
    · refine ⟨?_, by simpa [factorV, h0] using ih2⟩
      intro t ht
      simp only [factorV, if_neg h0, List.mem_cons] at ht
      rcases ht with ht | ht
      · subst ht; exact hhd
      · exact ih1 t ht

theorem pval_lt (M : Nat) (hM : 0 < M) (p : Poly) (h : wfP M p) : pval p < M := by
  match p with
  | [] => simpa [pval]
  | (c, []) :: rest => exact (h (c, []) (List.mem_cons_self _ _)).2
  | (c, x :: m) :: rest => simpa [pval]

theorem pval_pos_of_ne_nil (M : Nat) (p : Poly) (h : wfP M p) (hv : isVal p = true)
    (hne : p ≠ []) : 0 < pval p := by
  match p with
  | [] => exact absurd rfl hne
  | [(c, [])] => exact (h (c, []) (List.mem_cons_self _ _)).1
  | [(c, x :: m)] => simp [isVal] at hv
  | (c, m) :: t :: rest => simp [isVal] at hv

/-! ### Modular value helpers

The source computes interval endpoint values with rational arithmetic
followed by `mod(_, 2^N)` (or with pdd arithmetic on constants, which is
the same arithmetic mod `2^N`).  These helpers perform that arithmetic
directly on reduced naturals. -/

/-- `(a + b) mod M`. -/
def addM (M a b : Nat) : Nat := (a % M + b % M) % M

/-- `(a - b) mod M` (mathematical mod, result in `[0, M)`). -/
def subM (M a b : Nat) : Nat := (a % M + (M - b % M)) % M

/-- `(-a) mod M`. -/
def negM (M a : Nat) : Nat := subM M 0 a

/-- `(a * b) mod M`. -/
def mulM (M a b : Nat) : Nat := a % M * (b % M) % M

/-- `rational::mult_inverse` mod `M`: the inverse of `a` computed from the
extended Euclid coefficient; correct whenever `gcd a M = 1` (in particular
for odd `a` and `M = 2^w`). -/
def invM (M a : Nat) : Nat := ((Nat.gcdA a M) % (M : Int)).toNat

/-! ### Constraints -/

/-- The two constraint kinds the forbidden-interval matcher supports. -/
inductive Constr where
  | ule (l r : Poly)
  | umulOvfl (p q : Poly)
deriving DecidableEq

/-- A signed constraint: a constraint atom plus its polarity
(`pos = true` means the atom is asserted, `pos = false` its negation). -/
structure SignedC where
  cns : Constr
  pos : Bool
deriving DecidableEq

/-- Truth value of the underlying (positive) constraint atom under a total
model: `l ≤ r` for `ule`, `2^N ≤ p*q` for `umul_ovfl`. -/
def cAtom (M : Nat) (ρ : Nat → Nat) : Constr → Bool
  | .ule l r => decide (evalP M ρ l ≤ evalP M ρ r)
  | .umulOvfl p q => decide (M ≤ evalP M ρ p * evalP M ρ q)

/-- A signed constraint holds when its atom's truth value matches its sign. -/
def cHolds (M : Nat) (ρ : Nat → Nat) (sc : SignedC) : Prop :=
  cAtom M ρ sc.cns = sc.pos

instance (M : Nat) (ρ : Nat → Nat) (sc : SignedC) : Decidable (cHolds M ρ sc) := by
  unfold cHolds; infer_instance

/-- `constraints::ule(p, q)` (positive polarity). -/
def uleC (p q : Poly) : SignedC := ⟨.ule p q, true⟩

/-- `constraints::umul_ovfl(p, q)` (positive polarity). -/
def umulOvflC (p q : Poly) : SignedC := ⟨.umulOvfl p q, true⟩

/-- Negation `~c` of a signed constraint. -/
def notC (sc : SignedC) : SignedC := ⟨sc.cns, !sc.pos⟩

/-- Modelled from the spec: the constraint constructor `eq` of the external
`constraints` factory builds the equality `p = 0`; in the solver it is
encoded as the unsigned inequality `p ≤ 0`, which holds exactly when `p`
evaluates to `0`. -/
def eqC (M : Nat) (p : Poly) : SignedC := ⟨.ule p (constP M 0), true⟩

/-- `core::eq(p, q) = eq(p - q)` (from `core.h`). -/
def eq2C (M : Nat) (p q : Poly) : SignedC := eqC M (subP M p q)

/-- Modelled from the spec: the constraint constructor `ult` of the external
`constraints` factory; strict inequality `p < q` is the negation of
`q ≤ p`. -/
def ultC (p q : Poly) : SignedC := notC (uleC q p)

/-! ### Intervals -/

/-- Modelled from the spec: `eval_interval` (from the external
`interval.h`) is a half-open wrapping interval of machine words carrying
symbolic endpoint polynomials alongside their concrete values, or one of
the degenerate markers `full` / `empty`, distinguished by an explicit
tag. -/
inductive EvalInterval where
  | full
  | empty
  | proper (lo : Poly) (loVal : Nat) (hi : Poly) (hiVal : Nat)
deriving DecidableEq

/-- Modelled from the spec: membership of a value in an interval; a proper
interval `[lo, hi)` wraps at `2^N`, so `x ∈ [lo, hi)` iff
`(x - lo) mod M < (hi - lo) mod M`. -/
def memI (M x : Nat) : EvalInterval → Bool
  | .full => true
  | .empty => false
  | .proper _ lv _ hv => decide (subM M x lv < subM M hv lv)

/-- `fi_record` (forbidden_intervals.h): output record of a match. -/
structure FiRecord where
  interval : EvalInterval := .full
  sideCond : List SignedC := []
  src : List SignedC := []
  deps : List Nat := []
  coeff : Int := 0
  bitWidth : Nat := 0
deriving DecidableEq

/-! ### The forbidden-interval matcher (forbidden_intervals.cpp) -/

/-- `forbidden_intervals::linear_decompose`.  The C++ passes the
side-condition vector by reference and appends to it; we return the list
of newly appended side conditions as the last component. -/
def linear_decompose (M : Nat) (σ : Nat → Option Nat) (v : Nat) (p : Poly) :
    Bool × Nat × Poly × Poly × List SignedC :=
  if degV v p = 0 ∨ degV v p = 1 then
    -- deg 0:  p = 0*v + e  with e = p;  deg 1:  p = q*v + e
    let qe := if degV v p = 0 then (([] : Poly), p) else factorV v p
    let q := qe.1
    let e := qe.2
    if isVal q then
      let b := substP M σ e
      (isVal b, pval q, e, b, [])
    else
      -- r := eval(q); add side constraint q = r
      let r := substP M σ q
      if isVal r then
        let b := substP M σ e
        (isVal b, pval r, e, b, [eq2C M q r])
      else (false, 0, q, e, [])
  else (false, 0, [], [], [])

/-- `forbidden_intervals::push_eq`: record `p = 0` (or its negation) as a
side condition unless `p` is already a constant. -/
def push_eq (M : Nat) (isZero : Bool) (p : Poly) : List SignedC :=
  if isVal p then []
  else if isZero then [eqC M p] else [notC (eqC M p)]

/-- The complement-by-negation transform applied by `to_interval` when the
coefficient exceeds half the modulus: `y ∈ [l, u)  ⟺  -y ∈ [1-u, 1-l)`,
with the coefficient replaced by `2^N - coeff`. -/
def negTransform (M : Nat) (coeff : Int) (loVal : Nat) (lo : Poly)
    (hiVal : Nat) (hi : Poly) : Int × Nat × Poly × Nat × Poly :=
  ((M : Int) - coeff,
   subM M 1 hiVal, subP M (constP M 1) hi,
   subM M 1 loVal, subP M (constP M 1) lo)

/-- `forbidden_intervals::to_interval`.  The C++ mutates `coeff` (and the
endpoint arguments) in place; we return the interval together with the
final coefficient. -/
def to_interval (M : Nat) (c : SignedC) (isTrivial : Bool) (coeff : Int)
    (loVal : Nat) (lo : Poly) (hiVal : Nat) (hi : Poly) : EvalInterval × Int :=
  if isTrivial then
    (if c.pos then .empty else .full, coeff)
  else
    let t := if (M : Int) / 2 < coeff then negTransform M coeff loVal lo hiVal hi
             else (coeff, loVal, lo, hiVal, hi)
    match t with
    | (coeff, loVal, lo, hiVal, hi) =>
      if c.pos then (.proper lo loVal hi hiVal, coeff)
      else (.proper hi hiVal lo loVal, coeff)

/-- `forbidden_intervals::add_non_unit_side_conds`. -/
def add_non_unit_side_conds (M : Nat) (fi : FiRecord) (b1 e1 b2 e2 : Poly) :
    FiRecord :=
  if fi.coeff = 1 then fi
  else { fi with sideCond := fi.sideCond ++
      (if b1 = e1 then [] else [eq2C M b1 e1]) ++
      (if b2 = e2 then [] else [eq2C M b2 e2]) }

/-- `forbidden_intervals::match_zero`:
`a*v + b ⋚ 0` with `a` odd, the other side with zero coefficient and zero
value; forbidden interval anchored at `n = -b * a⁻¹`. -/
def match_zero (M : Nat) (c : SignedC) (a1 : Nat) (b1 e1 : Poly)
    (a2 : Nat) (b2 e2 : Poly) (fi : FiRecord) : Option FiRecord :=
  if a1 % 2 = 1 ∧ a2 = 0 ∧ isZeroP b2 then
    let a1inv := invM M a1
    -- interval for a*v + b > 0 is [n, n+1) where n = -b * a⁻¹
    let loVal := mulM M (negM M (pval b1)) a1inv
    let lo := smulP M a1inv (negP M e1)
    let hiVal := addM M loVal 1
    let hi := addP M lo (constP M 1)
    -- interval for a*v + b ≤ 0 is the complement
    let sc := if b2 = e2 then [] else [eq2C M b2 e2]
    if c.pos then
      some { fi with
             coeff := 1
             interval := EvalInterval.proper hi hiVal lo loVal
             sideCond := fi.sideCond ++ sc }
    else
      some { fi with
             coeff := 1
             interval := EvalInterval.proper lo loVal hi hiVal
             sideCond := fi.sideCond ++ sc }
  else none

/-- `forbidden_intervals::match_max`:
`-1 ⋚ a*v + b` with `a` odd; forbidden interval anchored at
`n = (-1 - b) * a⁻¹`. -/
def match_max (M : Nat) (c : SignedC) (a1 : Nat) (b1 e1 : Poly)
    (a2 : Nat) (b2 e2 : Poly) (fi : FiRecord) : Option FiRecord :=
  if a1 = 0 ∧ isMaxP M b1 = true ∧ a2 % 2 = 1 then
    let a2inv := invM M a2
    -- interval for -1 > a*v + b is [n, n+1) where n = (-1 - b) * a⁻¹
    let loVal := mulM M (subM M (M - 1) (pval b2)) a2inv
    let lo := smulP M a2inv (subP M (constP M (M - 1)) e2)
    let hiVal := addM M loVal 1
    let hi := addP M lo (constP M 1)
    -- interval for -1 ≤ a*v + b is the complement
    let sc := if b1 = e1 then [] else [eq2C M b1 e1]
    if c.pos then
      some { fi with
             coeff := 1
             interval := EvalInterval.proper hi hiVal lo loVal
             sideCond := fi.sideCond ++ sc }
    else
      some { fi with
             coeff := 1
             interval := EvalInterval.proper lo loVal hi hiVal
             sideCond := fi.sideCond ++ sc }
  else none

/-- `forbidden_intervals::match_linear1`:
`e1 + t ≤ e2` with `t = a1*v`; empty/full condition `e2 = -1`. -/
def match_linear1 (M : Nat) (c : SignedC) (a1 : Nat) (b1 e1 : Poly)
    (a2 : Nat) (b2 e2 : Poly) (fi : FiRecord) : Option FiRecord :=
  if a2 = 0 ∧ a1 ≠ 0 then
    let isTrivial := isZeroP (addP M b2 (constP M 1))
    let sc := push_eq M isTrivial (addP M e2 (constP M 1))
    let lo := addP M (subP M e2 e1) (constP M 1)
    let loVal := addM M (subM M (pval b2) (pval b1)) 1
    let hi := negP M e1
    let hiVal := negM M (pval b1)
    let ic := to_interval M c isTrivial (a1 : Int) loVal lo hiVal hi
    some (add_non_unit_side_conds M
      { fi with coeff := ic.2, interval := ic.1, sideCond := fi.sideCond ++ sc }
      b1 e1 b2 e2)
  else none

/-- `forbidden_intervals::match_linear2`:
`e1 ≤ e2 + t` with `t = a2*v`; empty/full condition `e1 = 0`. -/
def match_linear2 (M : Nat) (c : SignedC) (a1 : Nat) (b1 e1 : Poly)
    (a2 : Nat) (b2 e2 : Poly) (fi : FiRecord) : Option FiRecord :=
  if a1 = 0 ∧ a2 ≠ 0 then
    let isTrivial := isZeroP b1
    let sc := push_eq M isTrivial e1
    let lo := negP M e2
    let loVal := negM M (pval b2)
    let hi := subP M e1 e2
    let hiVal := subM M (pval b1) (pval b2)
    let ic := to_interval M c isTrivial (a2 : Int) loVal lo hiVal hi
    some (add_non_unit_side_conds M
      { fi with coeff := ic.2, interval := ic.1, sideCond := fi.sideCond ++ sc }
      b1 e1 b2 e2)
  else none

/-- `forbidden_intervals::match_linear3`:
`e1 + t ≤ e2 + t` with `t = a1*v = a2*v`; empty/full condition `e1 = e2`. -/
def match_linear3 (M : Nat) (c : SignedC) (a1 : Nat) (b1 e1 : Poly)
    (a2 : Nat) (b2 e2 : Poly) (fi : FiRecord) : Option FiRecord :=
  if a1 = a2 ∧ a1 ≠ 0 then
    let isTrivial := decide (pval b1 = pval b2)
    let sc := push_eq M isTrivial (subP M e1 e2)
    let lo := negP M e2
    let loVal := negM M (pval b2)
    let hi := negP M e1
    let hiVal := negM M (pval b1)
    let ic := to_interval M c isTrivial (a1 : Int) loVal lo hiVal hi
    some (add_non_unit_side_conds M
      { fi with coeff := ic.2, interval := ic.1, sideCond := fi.sideCond ++ sc }
      b1 e1 b2 e2)
  else none

/-- `forbidden_intervals::match_linear4`:
`e1 + a1*v ≤ e2 + a2*v` with distinct non-zero coefficients.  No genuine
interval exists; the values `a1,b1,a2,b2` are smuggled out through the
interval fields and `coeff = -1` marks the record as a diseq_lin case. -/
def match_linear4 (M : Nat) (c : SignedC) (a1 : Nat) (b1 e1 : Poly)
    (a2 : Nat) (b2 e2 : Poly) (fi : FiRecord) : Option FiRecord :=
  if a1 ≠ a2 ∧ a1 ≠ 0 ∧ a2 ≠ 0 then
    let lo := b1
    let loVal := a1
    let hi := b2
    let hiVal := a2
    let ic := to_interval M c false (-1 : Int) loVal lo hiVal hi
    some (add_non_unit_side_conds M
      { fi with coeff := ic.2, interval := ic.1 }
      b1 e1 b2 e2)
  else none

/-- `forbidden_intervals::match_non_zero` (disabled at its call site in the
source, which guards the call with `false &&`):
`a1*v + b1 > q` for negative constraints. -/
def match_non_zero (M : Nat) (c : SignedC) (a1 : Nat) (b1 e1 : Poly)
    (q : Poly) (fi : FiRecord) : Option FiRecord :=
  if a1 = 1 ∧ c.pos = false then
    -- v - k > q : forbidden interval [k, k+q+1)
    let loVal := negM M (pval b1)
    let lo := negP M e1
    let hiVal := addM M loVal 1
    let hi := addP M (addP M lo q) (constP M 1)
    some { fi with coeff := 1, interval := EvalInterval.proper lo loVal hi hiVal }
  else if a1 % 2 = 1 ∧ c.pos = false then
    -- a*v - k > q, a odd : forbidden interval [a⁻¹*k, a⁻¹*k + 1)
    let a1inv := invM M a1
    let loVal := mulM M (negM M (pval b1)) a1inv
    let lo := smulP M a1inv (negP M e1)
    let hiVal := addM M loVal 1
    let hi := addP M lo (constP M 1)
    some { fi with coeff := 1, interval := EvalInterval.proper lo loVal hi hiVal }
  else none

/-- `forbidden_intervals::match_non_max` (disabled at its call site in the
source, which guards the call with `false &&`):
`p > a2*v + b2` for negative constraints. -/
def match_non_max (M : Nat) (c : SignedC) (p : Poly)
    (a2 : Nat) (b2 e2 : Poly) (fi : FiRecord) : Option FiRecord :=
  if a2 = 1 ∧ c.pos = false then
    -- p > v + k : forbidden interval [p-k, -k)
    let hiVal := negM M (pval b2)
    let hi := negP M e2
    let loVal := subM M hiVal 1
    let lo := subP M p e2
    some { fi with coeff := 1, interval := EvalInterval.proper lo loVal hi hiVal }
  else if a2 % 2 = 1 ∧ c.pos = false then
    -- p > a*v + k, a odd
    let a2inv := invM M a2
    let loVal := mulM M a2inv (subM M (M - 1) (pval b2))
    let lo := smulP M a2inv (subP M (constP M (M - 1)) e2)
    let hiVal := addM M loVal 1
    let hi := addP M lo (constP M 1)
    some { fi with coeff := 1, interval := EvalInterval.proper lo loVal hi hiVal }
  else none

/-- `forbidden_intervals::get_interval_ule`.  The `backtrack` guard records
the side-condition list's length on entry and truncates back to it on the
failure paths (`released = false`); on success the appended side conditions
are kept. -/
def get_interval_ule (M : Nat) (σ : Nat → Option Nat) (c : SignedC)
    (L R : Poly) (v : Nat) (fi : FiRecord) : Bool × FiRecord :=
  let entry := fi.sideCond.length
  let fi0 := { fi with coeff := 1, src := fi.src ++ [c] }
  match linear_decompose M σ v L with
  | (ok1, a1, e1, b1, d1) =>
  match linear_decompose M σ v R with
  | (ok2, a2, e2, b2, d2) =>
  let fi1 := { fi0 with sideCond := fi0.sideCond ++ d1 ++ d2 }
  -- the match_non_zero / match_non_max trials here are disabled in the
  -- source (their conditions start with `false &&`), so they are skipped
  if !ok1 || !ok2 || (a1 == 0 && a2 == 0) then
    (false, { fi1 with sideCond := fi1.sideCond.take entry })
  else
    match match_zero M c a1 b1 e1 a2 b2 e2 fi1 with
    | some fi' => (true, fi')
    | none =>
    match match_max M c a1 b1 e1 a2 b2 e2 fi1 with
    | some fi' => (true, fi')
    | none =>
    match match_linear1 M c a1 b1 e1 a2 b2 e2 fi1 with
    | some fi' => (true, fi')
    | none =>
    match match_linear2 M c a1 b1 e1 a2 b2 e2 fi1 with
    | some fi' => (true, fi')
    | none =>
    match match_linear3 M c a1 b1 e1 a2 b2 e2 fi1 with
    | some fi' => (true, fi')
    | none =>
    match match_linear4 M c a1 b1 e1 a2 b2 e2 fi1 with
    | some fi' => (true, fi')
    | none => (false, { fi1 with sideCond := fi1.sideCond.take entry })

/-- Body of `get_interval_umul_ovfl` after the second swap
(`if (a2.is_one() && a1.is_zero()) swap(...)`): here `a1, e1, b1` name the
operand reduced to the bare variable and `a2, e2, b2` the other operand. -/
def umul_ovfl_core2 (M : Nat) (c : SignedC) (fi1 : FiRecord) (entry : Nat)
    (a1 : Nat) (e1 b1 : Poly) (a2 : Nat) (e2 b2 : Poly) : Bool × FiRecord :=
  let bound := M - 1                       -- m.max_value()
  let fail := (false, { fi1 with sideCond := fi1.sideCond.take entry })
  if !(a1 == 1) || !(a2 == 0) then fail
  else if !(isZeroP b1) then fail
  else
    -- Ovfl(v, e2)
    if c.pos then
      if pval b2 ≤ 1 then
        (true, { fi1 with
                 interval := EvalInterval.full
                 sideCond := fi1.sideCond ++ [uleC e2 (constP M 1)] })
      else
        -- A := div(2^N - 1, b2.val());  max B with A*B < 2^N
        let A := bound / pval b2
        let B := (bound + A) / A - 1
        if 4 ≤ A ∧ 4 ≤ B then fail
        else
          (true, { fi1 with
                   interval := EvalInterval.proper (constP M 0) 0 (constP M (A + 1)) (A + 1)
                   sideCond := fi1.sideCond ++ [uleC e2 (constP M B)] })
    else
      if pval b2 ≤ 1 then fail
      else
        -- A := div(2^N - 1, b2.val()) + 1;  min B with A*B ≥ 2^N
        let A := bound / pval b2 + 1
        let B := (bound + A) / A
        if 4 ≤ A ∧ 4 ≤ B then fail
        else
          (true, { fi1 with
                   interval := EvalInterval.proper (constP M A) A (constP M 0) 0
                   sideCond := fi1.sideCond ++ [uleC (constP M (pval b2)) e2] })

/-- Body of `get_interval_umul_ovfl` after the first swap
(`if (ok2 && !ok1) swap(...)`). -/
def umul_ovfl_core1 (M : Nat) (c : SignedC) (fi1 : FiRecord) (entry : Nat)
    (ok1 : Bool) (a1 : Nat) (e1 b1 : Poly)
    (ok2 : Bool) (a2 : Nat) (e2 b2 : Poly) : Bool × FiRecord :=
  if ok1 && !ok2 && (a1 == 1) && isZeroP b1 && c.pos then
    (true, { fi1 with interval := EvalInterval.proper (constP M 0) 0 (constP M 2) 2 })
  else if !ok1 || !ok2 then
    (false, { fi1 with sideCond := fi1.sideCond.take entry })
  -- if (a2.is_one() && a1.is_zero()) swap the sides
  else if (a2 == 1) && (a1 == 0) then
    umul_ovfl_core2 M c fi1 entry a2 e2 b2 a1 e1 b1
  else
    umul_ovfl_core2 M c fi1 entry a1 e1 b1 a2 e2 b2

/-- `forbidden_intervals::get_interval_umul_ovfl`.  The in-place swaps of
the C++ are rendered as calls of the post-swap bodies with exchanged
arguments. -/
def get_interval_umul_ovfl (M : Nat) (σ : Nat → Option Nat) (c : SignedC)
    (P Q : Poly) (v : Nat) (fi : FiRecord) : Bool × FiRecord :=
  let entry := fi.sideCond.length
  let fi0 := { fi with coeff := 1, src := fi.src ++ [c] }
  match linear_decompose M σ v P with
  | (ok1, a1, e1, b1, d1) =>
  match linear_decompose M σ v Q with
  | (ok2, a2, e2, b2, d2) =>
  let fi1 := { fi0 with sideCond := fi0.sideCond ++ d1 ++ d2 }
  -- if (ok2 && !ok1) swap the two decompositions
  if ok2 && !ok1 then umul_ovfl_core1 M c fi1 entry ok2 a2 e2 b2 ok1 a1 e1 b1
  else umul_ovfl_core1 M c fi1 entry ok1 a1 e1 b1 ok2 a2 e2 b2

/-- `forbidden_intervals::get_interval`: dispatch on the constraint kind.
`w` is the bit width `s.size(v)` of the variable, with `M = 2^w`.
(Constraint kinds other than `ule` and `umul_ovfl` fail immediately in the
source; our embedded `Constr` carries exactly the two supported kinds.) -/
def get_interval (M w : Nat) (σ : Nat → Option Nat) (c : SignedC) (v : Nat)
    (fi : FiRecord) : Bool × FiRecord :=
  -- SASSERT(fi.side_cond.empty()); SASSERT(fi.src.empty());
  let fi := { fi with bitWidth := w }
  match c.cns with
  | .ule l r => get_interval_ule M σ c l r v fi
  | .umulOvfl p q => get_interval_umul_ovfl M σ c p q v fi


/-! ### Saturation engine (saturation.cpp, enabled rules) -/

/-- Modelled from the spec: the external `inequality` view of a `ule`
signed constraint.  A positive `p ≤ q` is the non-strict inequality; a
negated `p ≤ q` is the strict inequality `q < p`.  `cid` is the
constraint's identifier in the solver. -/
structure Ineq where
  lhs : Poly
  rhs : Poly
  strict : Bool
  cid : Nat
deriving DecidableEq

/-- Modelled from the spec: `inequality::from_ule` on a `ule` constraint. -/
def ineq_from_ule (c : SignedC) (cid : Nat) : Option Ineq :=
  match c.cns with
  | .ule l r => some (if c.pos then ⟨l, r, false, cid⟩ else ⟨r, l, true, cid⟩)
  | _ => none

/-- `saturation::match_core`: scan the unsat core (a list of
identifier/constraint pairs) for the first constraint satisfying the
predicate, returning its identifier. -/
def match_core (p : SignedC → Bool) (core : List (Nat × SignedC)) : Option Nat :=
  match core.find? (fun t => p t.2) with
  | some t => some t.1
  | none => none

/-- `saturation::propagate_infer_equality`:
`p ≤ q, q ≤ p ⟹ p - q = 0`.  Skips strict inequalities and inequalities
not mentioning `x`; searches the unsat core for the syntactic mirror
inequality; on a match propagates `eq(lhs, rhs)` justified by the matched
core constraint and the inequality itself.  Returns the propagated
constraint with its premise identifiers. -/
def propagate_infer_equality (M : Nat) (core : List (Nat × SignedC)) (x : Nat)
    (i : Ineq) : Option (SignedC × List Nat) :=
  if i.strict then none
  else if degV x i.lhs = 0 ∧ degV x i.rhs = 0 then none
  else
    match match_core (fun sc =>
      match sc.cns with
      | .ule l r => sc.pos && decide (l = i.rhs) && decide (r = i.lhs)
      | _ => false) core with
    | some cid => some (eq2C M i.lhs i.rhs, [cid, i.cid])
    | none => none

/-- Modelled from the spec: `inequality::is_xY_l_xZ` — match `x*Y ≤ x*Z`
pivoted on the variable `x`: both sides factor as `x` times a polynomial,
with no remainder free of `x`. -/
def is_xY_l_xZ (v : Nat) (i : Ineq) : Option (Poly × Poly) :=
  if degV v i.lhs = 1 ∧ degV v i.rhs = 1 then
    let f1 := factorV v i.lhs
    let f2 := factorV v i.rhs
    if f1.2 = [] ∧ f2.2 = [] then some (f1.1, f2.1) else none
  else none

/-- An element of a learned clause: a premise dependency or a literal. -/
inductive ClauseLit where
  | dep (cid : Nat)
  | lit (sc : SignedC)
deriving DecidableEq

/-- `saturation::try_ugt_x`: the overflow-monotonicity inferences
`[x] y*x < z*x  ⟹  Ω*(x,y) ∨ y < z` and
`[x] y*x ≤ z*x  ⟹  Ω*(x,y) ∨ y ≤ z ∨ x = 0`,
returned as the learned clause (premise dependency first). -/
def try_ugt_x (M : Nat) (v : Nat) (i : Ineq) : Option (List ClauseLit) :=
  let x := varP v
  match is_xY_l_xZ v i with
  | none => none
  | some (y, z) =>
    let ovfl := umulOvflC x y
    if i.strict then
      some [ClauseLit.dep i.cid, ClauseLit.lit ovfl, ClauseLit.lit (ultC y z)]
    else
      some [ClauseLit.dep i.cid, ClauseLit.lit ovfl, ClauseLit.lit (eqC M x),
            ClauseLit.lit (uleC y z)]


-- Decidable equality for the result tuple of `linear_decompose`; the
-- default instance search exceeds its size limit on this nested product.
set_option synthInstance.maxSize 1000 in
instance decEqDecomposeResult :
    DecidableEq (Bool × Nat × Poly × Poly × List SignedC) :=
  inferInstance

/-! ### Helper computation lemmas for the matcher -/

theorem degV_varP (v : Nat) : degV v (varP v) = 1 := by
  simp [degV, varP]

theorem factorV_varP (v : Nat) : factorV v (varP v) = ([(1, [])], []) := by
  simp [factorV, varP]

/-- Decomposing the bare variable: coefficient 1, zero remainder, no side
conditions. -/
theorem linear_decompose_varP (M : Nat) (σ : Nat → Option Nat) (v : Nat) :
    linear_decompose M σ v (varP v) = (true, 1, [], [], []) := by
  unfold linear_decompose
  rw [degV_varP]
  simp [factorV_varP, isVal, pval, substP]

/-- Decomposing a degree-0 polynomial that evaluates to a constant. -/
theorem linear_decompose_deg0 (M : Nat) (σ : Nat → Option Nat) (v : Nat)
    (p : Poly) (k : Nat) (hdeg : degV v p = 0) (hsub : substP M σ p = constP M k)
    (hk : 0 < k % M) :
    linear_decompose M σ v p = (true, 0, p, constP M k, []) := by
  have hc : constP M k = [(k % M, [])] := by
    unfold constP insertTerm
    rw [if_neg (by omega)]
  unfold linear_decompose
  rw [hdeg]
  simp [hsub, hc, isVal, pval]

/-- Claim C3: for the positive constraint `umul_ovfl(v, q)` at bit width 8
where `q` evaluates to 3, `get_interval` succeeds with the proper
forbidden interval `[0, 86)` (with `A = div(255, 3) = 85`) and the side
condition `q ≤ 3` bounding the other operand; the interval forbids exactly
the values `v` with `v * 3 < 256`, i.e. `v ≤ 85`. -/
theorem C3_umul_ovfl_interval (σ : Nat → Option Nat) (q : Poly) (v : Nat)
    (fi : FiRecord) (hdeg : degV v q = 0) (hsub : substP 256 σ q = constP 256 3)
    (hsc : fi.sideCond = []) (hsrc : fi.src = []) :
    get_interval 256 8 σ (umulOvflC (varP v) q) v fi =
      (true, { fi with
               bitWidth := 8
               coeff := 1
               src := [umulOvflC (varP v) q]
               sideCond := [uleC q (constP 256 3)]
               interval := EvalInterval.proper (constP 256 0) 0 (constP 256 86) 86 }) ∧
    (∀ x, x < 256 →
      (memI 256 x (EvalInterval.proper (constP 256 0) 0 (constP 256 86) 86) = true ↔
        x * 3 < 256)) := by
  constructor
  · have hd1 := linear_decompose_varP 256 σ v
    have hd2 := linear_decompose_deg0 256 σ v q 3 hdeg hsub (by decide)
    simp only [get_interval, umulOvflC]
    unfold get_interval_umul_ovfl
    rw [hd1, hd2]
    simp [umul_ovfl_core1, umul_ovfl_core2, hsc, hsrc, isZeroP, isVal, pval]
    norm_num [constP, insertTerm]
  · intro x hx
    unfold memI subM
    rw [Nat.mod_eq_of_lt hx]
    simp only [decide_eq_true_eq]
    omega

theorem C3_umul_ovfl_interval_witness :
    get_interval 256 8 (fun _ => none) (umulOvflC (varP 0) (constP 256 3)) 0 {} =
      (true, { bitWidth := 8
               coeff := 1
               src := [umulOvflC (varP 0) (constP 256 3)]
               sideCond := [uleC (constP 256 3) (constP 256 3)]
               interval := EvalInterval.proper (constP 256 0) 0 (constP 256 86) 86 }) ∧
    (∀ x, x < 256 →
      (memI 256 x (EvalInterval.proper (constP 256 0) 0 (constP 256 86) 86) = true ↔
        x * 3 < 256)) :=
  C3_umul_ovfl_interval (fun _ => none) (constP 256 3) 0 {} (by decide) (by decide)
    rfl rfl


/-! ### Arithmetic lemmas for the modular helpers -/

theorem addM_eq (M a b : Nat) : addM M a b = (a + b) % M := by
  unfold addM; rw [← Nat.add_mod]

theorem mulM_eq (M a b : Nat) : mulM M a b = a * b % M := by
  unfold mulM; rw [← Nat.mul_mod]

theorem negM_eq (M a : Nat) : negM M a = (M - a % M) % M := by
  unfold negM subM; rw [Nat.zero_mod, Nat.zero_add]

/-- Closed form of `subM` on reduced arguments. -/
theorem subM_eq (M x n : Nat) (hx : x < M) (hn : n < M) :
    subM M x n = if n ≤ x then x - n else x + M - n := by
  unfold subM
  rw [Nat.mod_eq_of_lt hx, Nat.mod_eq_of_lt hn]
  by_cases h : n ≤ x
  · rw [if_pos h]
    have he : x + (M - n) = (x - n) + M := by omega
    rw [he, Nat.add_mod_right, Nat.mod_eq_of_lt (by omega)]
  · rw [if_neg h, Nat.mod_eq_of_lt (by omega)]; omega

theorem subM_lt (M : Nat) (hM : 0 < M) (a b : Nat) : subM M a b < M :=
  Nat.mod_lt _ hM

/-- `subM` only depends on its arguments mod `M`. -/
theorem subM_mod_left (M a b : Nat) : subM M (a % M) b = subM M a b := by
  unfold subM; rw [Nat.mod_mod_of_dvd _ (dvd_refl M)]

theorem subM_mod_right (M a b : Nat) : subM M a (b % M) = subM M a b := by
  unfold subM; rw [Nat.mod_mod_of_dvd _ (dvd_refl M)]

theorem subM_congr_left (M a a' b : Nat) (h : a ≡ a' [MOD M]) :
    subM M a b = subM M a' b := by
  rw [← subM_mod_left M a b, ← subM_mod_left M a' b, h]

theorem subM_congr_right (M a b b' : Nat) (h : b ≡ b' [MOD M]) :
    subM M a b = subM M a b' := by
  rw [← subM_mod_right M a b, ← subM_mod_right M a b', h]

theorem invM_lt (M a : Nat) (hM : 0 < M) : invM M a < M := by
  unfold invM
  have h1 : (0 : Int) < (M : Int) := by exact_mod_cast hM
  have h2 := Int.emod_lt_of_pos (Nat.gcdA a M) h1
  omega

/-- Correctness of `invM`: a Bézout inverse mod `M` for coprime `a`. -/
theorem mul_invM_modeq (M a : Nat) (hM : 0 < M) (hg : Nat.gcd a M = 1) :
    a * invM M a ≡ 1 [MOD M] := by
  have hMz : (M : Int) ≠ 0 := by
    have : M ≠ 0 := by omega
    exact_mod_cast this
  have hbez : (1 : Int) = a * Nat.gcdA a M + M * Nat.gcdB a M := by
    have h := Nat.gcd_eq_gcd_ab a M
    rw [hg] at h
    exact_mod_cast h
  have hcast : ((invM M a : Nat) : Int) = Nat.gcdA a M % (M : Int) := by
    unfold invM
    exact Int.toNat_of_nonneg (Int.emod_nonneg _ hMz)
  have h1 : ((a : Int) * invM M a) % M = 1 % M := by
    rw [hcast, Int.mul_emod, Int.emod_emod_of_dvd _ (dvd_refl _), ← Int.mul_emod]
    conv_rhs => rw [hbez]
    rw [Int.add_mul_emod_self_left]
  have h2 : ((a * invM M a : Nat) : Int) % M = ((1 : Nat) : Int) % M := by
    push_cast
    exact h1
  unfold Nat.ModEq
  have h3 : ((a * invM M a % M : Nat) : Int) = ((1 % M : Nat) : Int) := by
    push_cast
    exact h2
  exact_mod_cast h3

theorem odd_gcd_pow2 (w a : Nat) (ha : a % 2 = 1) : Nat.gcd a (2 ^ w) = 1 :=
  Nat.Coprime.pow_right w (Nat.coprime_two_right.mpr (Nat.odd_iff.mpr ha))


/-- `subM M (n+1) n = 1` on reduced arguments. -/
theorem subM_succ_self (M n : Nat) (hM : 1 < M) (hn : n < M) :
    subM M (n + 1) n = 1 := by
  unfold subM
  rcases Nat.lt_or_ge (n + 1) M with h | h
  · rw [Nat.mod_eq_of_lt h, Nat.mod_eq_of_lt hn]
    have he : n + 1 + (M - n) = 1 + M := by omega
    rw [he, Nat.add_mod_right, Nat.mod_eq_of_lt (by omega)]
  · have he : n + 1 = M := by omega
    rw [he, Nat.mod_self, Nat.mod_eq_of_lt hn, Nat.zero_add,
      Nat.mod_eq_of_lt (by omega)]
    omega

/-- `subM M n (n+1) = M - 1` on reduced arguments. -/
theorem subM_self_succ (M n : Nat) (hM : 1 < M) (hn : n < M) :
    subM M n (n + 1) = M - 1 := by
  unfold subM
  rw [Nat.mod_eq_of_lt hn]
  rcases Nat.lt_or_ge (n + 1) M with h | h
  · rw [Nat.mod_eq_of_lt h]
    have he : n + (M - (n + 1)) = M - 1 := by omega
    rw [he, Nat.mod_eq_of_lt (by omega)]
  · have he : n + 1 = M := by omega
    rw [he, Nat.mod_self, Nat.sub_zero, Nat.add_mod_right, Nat.mod_eq_of_lt hn]
    omega

/-- Membership in the unit interval `[n, n+1)`. -/
theorem memI_unit_iff (M n x : Nat) (hM : 1 < M) (hn : n < M) (hx : x < M) :
    (subM M x n < subM M (addM M n 1) n) ↔ x = n := by
  rw [addM_eq, subM_mod_left, subM_succ_self M n hM hn,
    subM_eq M x n hx hn]
  by_cases h : n ≤ x <;> simp [h] <;> omega

/-- Membership in the complement interval `[n+1, n)`. -/
theorem memI_unit_compl_iff (M n x : Nat) (hM : 1 < M) (hn : n < M) (hx : x < M) :
    (subM M x (addM M n 1) < subM M n (addM M n 1)) ↔ x ≠ n := by
  rw [addM_eq, subM_mod_right, subM_mod_right, subM_self_succ M n hM hn]
  rcases Nat.lt_or_ge (n + 1) M with h | h
  · rw [subM_eq M x (n + 1) hx (by omega)]
    by_cases hle : n + 1 ≤ x <;> simp [hle] <;> omega
  · have he : n + 1 = M := by omega
    have h0 : subM M x (n + 1) = x := by
      unfold subM
      rw [he, Nat.mod_self, Nat.sub_zero, Nat.mod_eq_of_lt hx, Nat.add_mod_right,
        Nat.mod_eq_of_lt hx]
    rw [h0]
    omega

theorem mulM_modeq (M a b : Nat) : mulM M a b ≡ a * b [MOD M] := by
  rw [mulM_eq]; exact Nat.mod_modEq _ M

theorem mulM_lt (M : Nat) (hM : 0 < M) (a b : Nat) : mulM M a b < M := by
  unfold mulM; exact Nat.mod_lt _ hM

theorem negM_add_modeq (M a : Nat) (hM : 0 < M) : negM M a + a ≡ 0 [MOD M] := by
  rw [negM_eq]
  have h1 : (M - a % M) % M + a ≡ (M - a % M) + a [MOD M] :=
    (Nat.mod_modEq _ M).add_right a
  have h2 : (M - a % M) + a ≡ (M - a % M) + a % M [MOD M] :=
    (Nat.mod_modEq a M).symm.add_left _
  have h3 : (M - a % M) + a % M = M := by
    have := Nat.mod_lt a hM
    omega
  calc (M - a % M) % M + a ≡ (M - a % M) + a [MOD M] := h1
    _ ≡ (M - a % M) + a % M [MOD M] := h2
    _ = M := h3
    _ ≡ 0 [MOD M] := (Nat.modEq_zero_iff_dvd).mpr (dvd_refl M)

/-- The anchor `n = -b * a⁻¹` of `match_zero` satisfies `a*n + b ≡ 0`. -/
theorem match_zero_root (M a bv : Nat) (hM : 0 < M) (hg : Nat.gcd a M = 1) :
    (a * mulM M (negM M bv) (invM M a) + bv) % M = 0 := by
  have hinv := mul_invM_modeq M a hM hg
  have h1 : a * mulM M (negM M bv) (invM M a) + bv ≡
      a * (negM M bv * invM M a) + bv [MOD M] :=
    ((mulM_modeq M _ _).mul_left a).add_right bv
  have h2 : a * (negM M bv * invM M a) = (a * invM M a) * negM M bv := by ring
  have h3 : (a * invM M a) * negM M bv ≡ 1 * negM M bv [MOD M] :=
    hinv.mul_right _
  have h4 : (1 : Nat) * negM M bv + bv = negM M bv + bv := by ring
  calc a * mulM M (negM M bv) (invM M a) + bv
      ≡ a * (negM M bv * invM M a) + bv [MOD M] := h1
    _ = (a * invM M a) * negM M bv + bv := by rw [h2]
    _ ≡ 1 * negM M bv + bv [MOD M] := h3.add_right bv
    _ = negM M bv + bv := h4
    _ ≡ 0 [MOD M] := negM_add_modeq M bv hM
    _ ≡ 0 % M [MOD M] := (Nat.mod_modEq 0 M).symm

/-- The anchor of `match_zero` is the unique root of `a*x + b = 0 mod M`. -/
theorem match_zero_unique (M a bv x : Nat) (hM : 0 < M) (hg : Nat.gcd a M = 1)
    (hx : (a * x + bv) % M = 0) :
    x % M = mulM M (negM M bv) (invM M a) := by
  have hinv := mul_invM_modeq M a hM hg
  have h0 : a * x + bv ≡ 0 [MOD M] := by
    unfold Nat.ModEq; rw [hx, Nat.zero_mod]
  have h1 : a * x + bv ≡ negM M bv + bv [MOD M] :=
    h0.trans (negM_add_modeq M bv hM).symm
  have h2 : a * x ≡ negM M bv [MOD M] := Nat.ModEq.add_right_cancel' bv h1
  have h3 : x ≡ invM M a * (a * x) [MOD M] := by
    have : invM M a * (a * x) = (a * invM M a) * x := by ring
    rw [this]
    have := hinv.mul_right x
    rw [Nat.one_mul] at this
    exact this.symm
  have h4 : invM M a * (a * x) ≡ invM M a * negM M bv [MOD M] := h2.mul_left _
  have h5 : x ≡ mulM M (negM M bv) (invM M a) [MOD M] := by
    refine (h3.trans h4).trans ?_
    have : invM M a * negM M bv = negM M bv * invM M a := by ring
    rw [this]
    exact (mulM_modeq M _ _).symm
  have h6 := h5
  unfold Nat.ModEq at h6
  rw [Nat.mod_eq_of_lt (mulM_lt M hM _ _)] at h6
  exact h6

/-- First-success-wins combinator over a list of pattern matchers. -/
def firstSome (fs : List (FiRecord → Option FiRecord)) (fi : FiRecord) :
    Option FiRecord :=
  match fs with
  | [] => none
  | f :: rest =>
    match f fi with
    | some r => some r
    | none => firstSome rest fi

/-- The six pattern matchers the ULE path tries, in priority order. -/
def ule_patterns (M : Nat) (c : SignedC) (a1 : Nat) (b1 e1 : Poly)
    (a2 : Nat) (b2 e2 : Poly) : List (FiRecord → Option FiRecord) :=
  [match_zero M c a1 b1 e1 a2 b2 e2, match_max M c a1 b1 e1 a2 b2 e2,
   match_linear1 M c a1 b1 e1 a2 b2 e2, match_linear2 M c a1 b1 e1 a2 b2 e2,
   match_linear3 M c a1 b1 e1 a2 b2 e2, match_linear4 M c a1 b1 e1 a2 b2 e2]

/-- Characterization of `get_interval_ule` as decomposition followed by a
first-match-wins scan of the six enabled patterns. -/
theorem get_interval_ule_chain (M : Nat) (σ : Nat → Option Nat) (c : SignedC)
    (L R : Poly) (v : Nat) (fi : FiRecord)
    (ok1 : Bool) (a1 : Nat) (e1 b1 : Poly) (d1 : List SignedC)
    (ok2 : Bool) (a2 : Nat) (e2 b2 : Poly) (d2 : List SignedC)
    (h1 : linear_decompose M σ v L = (ok1, a1, e1, b1, d1))
    (h2 : linear_decompose M σ v R = (ok2, a2, e2, b2, d2)) :
    get_interval_ule M σ c L R v fi =
      (if ok1 = false ∨ ok2 = false ∨ (a1 = 0 ∧ a2 = 0) then
        (false,
          { fi with
            coeff := 1
            src := fi.src ++ [c]
            sideCond := (fi.sideCond ++ d1 ++ d2).take fi.sideCond.length })
       else
         match firstSome (ule_patterns M c a1 b1 e1 a2 b2 e2)
             { fi with
               coeff := 1
               src := fi.src ++ [c]
               sideCond := fi.sideCond ++ d1 ++ d2 } with
         | some fi2 => (true, fi2)
         | none =>
           (false,
             { fi with
               coeff := 1
               src := fi.src ++ [c]
               sideCond := (fi.sideCond ++ d1 ++ d2).take fi.sideCond.length })) := by
  unfold get_interval_ule
  rw [h1, h2]
  cases ok1 with
  | false => simp
  | true =>
    cases ok2 with
    | false => simp
    | true =>
      by_cases hzz : a1 = 0 ∧ a2 = 0
      · simp [hzz.1, hzz.2]
      · have hb : (a1 == 0 && a2 == 0) = false := by
          cases hb1 : a1 == 0 <;> cases hb2 : a2 == 0 <;> simp_all [beq_iff_eq]
        simp only [hb, Bool.not_true, Bool.false_or, Bool.or_false,
          if_neg (by simp [hzz] : ¬(true = false ∨ true = false ∨ (a1 = 0 ∧ a2 = 0))),
          firstSome, ule_patterns]
        cases hm0 : match_zero M c a1 b1 e1 a2 b2 e2
            { fi with
              coeff := 1
              src := fi.src ++ [c]
              sideCond := fi.sideCond ++ d1 ++ d2 } <;> simp only [hm0]
        cases hm1 : match_max M c a1 b1 e1 a2 b2 e2
            { fi with
              coeff := 1
              src := fi.src ++ [c]
              sideCond := fi.sideCond ++ d1 ++ d2 } <;> simp only [hm1]
        cases hm2 : match_linear1 M c a1 b1 e1 a2 b2 e2
            { fi with
              coeff := 1
              src := fi.src ++ [c]
              sideCond := fi.sideCond ++ d1 ++ d2 } <;> simp only [hm2]
        cases hm3 : match_linear2 M c a1 b1 e1 a2 b2 e2
            { fi with
              coeff := 1
              src := fi.src ++ [c]
              sideCond := fi.sideCond ++ d1 ++ d2 } <;> simp only [hm3]
        cases hm4 : match_linear3 M c a1 b1 e1 a2 b2 e2
            { fi with
              coeff := 1
              src := fi.src ++ [c]
              sideCond := fi.sideCond ++ d1 ++ d2 } <;> simp only [hm4]
        cases hm5 : match_linear4 M c a1 b1 e1 a2 b2 e2
            { fi with
              coeff := 1
              src := fi.src ++ [c]
              sideCond := fi.sideCond ++ d1 ++ d2 } <;> simp only [hm5]
        all_goals simp


/-- The anchor value `n = -b·a⁻¹ mod M` computed by `match_zero`. -/
def zeroAnchor (M a bv : Nat) : Nat := mulM M (negM M bv) (invM M a)

/-- Claim C2: for a `ule` constraint whose sides decompose to `a1*v + b1`
with `a1` odd and to coefficient zero with zero value, the matcher succeeds
(via `match_zero`) with `coeff = 1` and a unit-width interval anchored at
`n = -b1·a1⁻¹ mod 2^w`: for the positive (equality) polarity the interval
is `[n+1, n)`, forbidding every value except the unique root `n` of
`a1*x + b1 = 0`; for the negated polarity it is the complement `[n, n+1)`,
forbidding exactly `n`. -/
theorem C2_match_zero_unit_interval (w : Nat) (hw : 0 < w)
    (σ : Nat → Option Nat) (v : Nat) (L R : Poly) (pos : Bool) (fi : FiRecord)
    (a1 : Nat) (e1 b1 e2 b2 : Poly) (d1 d2 : List SignedC)
    (h1 : linear_decompose (2 ^ w) σ v L = (true, a1, e1, b1, d1))
    (h2 : linear_decompose (2 ^ w) σ v R = (true, 0, e2, b2, d2))
    (hodd : a1 % 2 = 1) (hb2 : b2 = []) :
    ∃ fi' lp hp,
      get_interval (2 ^ w) w σ ⟨Constr.ule L R, pos⟩ v fi = (true, fi') ∧
      fi'.coeff = 1 ∧
      fi'.interval =
        (if pos then
          EvalInterval.proper hp (addM (2 ^ w) (zeroAnchor (2 ^ w) a1 (pval b1)) 1)
            lp (zeroAnchor (2 ^ w) a1 (pval b1))
        else
          EvalInterval.proper lp (zeroAnchor (2 ^ w) a1 (pval b1))
            hp (addM (2 ^ w) (zeroAnchor (2 ^ w) a1 (pval b1)) 1)) ∧
      (a1 * zeroAnchor (2 ^ w) a1 (pval b1) + pval b1) % 2 ^ w = 0 ∧
      (∀ x, x < 2 ^ w →
        (memI (2 ^ w) x fi'.interval = true ↔
          (if pos then x ≠ zeroAnchor (2 ^ w) a1 (pval b1)
           else x = zeroAnchor (2 ^ w) a1 (pval b1)))) := by
  have hM : 1 < 2 ^ w := Nat.one_lt_pow (by omega) (by omega)
  have ha1 : a1 ≠ 0 := by omega
  have hg : Nat.gcd a1 (2 ^ w) = 1 := odd_gcd_pow2 w a1 hodd
  have hroot := match_zero_root (2 ^ w) a1 (pval b1) (by omega) hg
  have hnlt : zeroAnchor (2 ^ w) a1 (pval b1) < 2 ^ w := mulM_lt _ (by omega) _ _
  subst hb2
  have hcond : ¬(true = false ∨ true = false ∨ (a1 = 0 ∧ (0 : Nat) = 0)) := by
    simp [ha1]
  cases pos with
  | true =>
    have hmz : ∀ fr : FiRecord,
        match_zero (2 ^ w) ⟨Constr.ule L R, true⟩ a1 b1 e1 0 [] e2 fr =
          some { fr with
                 coeff := 1
                 interval := EvalInterval.proper
                   (addP (2 ^ w) (smulP (2 ^ w) (invM (2 ^ w) a1) (negP (2 ^ w) e1)) (constP (2 ^ w) 1))
                   (addM (2 ^ w) (zeroAnchor (2 ^ w) a1 (pval b1)) 1)
                   (smulP (2 ^ w) (invM (2 ^ w) a1) (negP (2 ^ w) e1))
                   (zeroAnchor (2 ^ w) a1 (pval b1))
                 sideCond := fr.sideCond ++
                   (if ([] : Poly) = e2 then [] else [eq2C (2 ^ w) [] e2]) } := by
      intro fr
      unfold match_zero
      rw [if_pos ⟨hodd, rfl, by simp [isZeroP]⟩]
      rfl
    simp only [get_interval]
    rw [get_interval_ule_chain (2 ^ w) σ ⟨Constr.ule L R, true⟩ L R v
        { fi with bitWidth := w } true a1 e1 b1 d1 true 0 e2 [] d2 h1 h2,
      if_neg hcond]
    simp only [firstSome, ule_patterns, hmz]
    refine ⟨_, _, _, rfl, rfl, rfl, hroot, ?_⟩
    intro x hx
    show decide (subM (2 ^ w) x (addM (2 ^ w) (zeroAnchor (2 ^ w) a1 (pval b1)) 1)
        < subM (2 ^ w) (zeroAnchor (2 ^ w) a1 (pval b1))
            (addM (2 ^ w) (zeroAnchor (2 ^ w) a1 (pval b1)) 1)) = true ↔ _
    rw [decide_eq_true_eq]
    simpa using memI_unit_compl_iff (2 ^ w) (zeroAnchor (2 ^ w) a1 (pval b1)) x hM
      hnlt hx
  | false =>
    have hmz : ∀ fr : FiRecord,
        match_zero (2 ^ w) ⟨Constr.ule L R, false⟩ a1 b1 e1 0 [] e2 fr =
          some { fr with
                 coeff := 1
                 interval := EvalInterval.proper
                   (smulP (2 ^ w) (invM (2 ^ w) a1) (negP (2 ^ w) e1))
                   (zeroAnchor (2 ^ w) a1 (pval b1))
                   (addP (2 ^ w) (smulP (2 ^ w) (invM (2 ^ w) a1) (negP (2 ^ w) e1)) (constP (2 ^ w) 1))
                   (addM (2 ^ w) (zeroAnchor (2 ^ w) a1 (pval b1)) 1)
                 sideCond := fr.sideCond ++
                   (if ([] : Poly) = e2 then [] else [eq2C (2 ^ w) [] e2]) } := by
      intro fr
      unfold match_zero
      rw [if_pos ⟨hodd, rfl, by simp [isZeroP]⟩]
      rfl
    simp only [get_interval]
    rw [get_interval_ule_chain (2 ^ w) σ ⟨Constr.ule L R, false⟩ L R v
        { fi with bitWidth := w } true a1 e1 b1 d1 true 0 e2 [] d2 h1 h2,
      if_neg hcond]
    simp only [firstSome, ule_patterns, hmz]
    refine ⟨_, _, _, rfl, rfl, rfl, hroot, ?_⟩
    intro x hx
    show decide (subM (2 ^ w) x (zeroAnchor (2 ^ w) a1 (pval b1))
        < subM (2 ^ w) (addM (2 ^ w) (zeroAnchor (2 ^ w) a1 (pval b1)) 1)
            (zeroAnchor (2 ^ w) a1 (pval b1))) = true ↔ _
    rw [decide_eq_true_eq]
    simpa using memI_unit_iff (2 ^ w) (zeroAnchor (2 ^ w) a1 (pval b1)) x hM hnlt hx

theorem C2_match_zero_unit_interval_witness :
    ∃ fi' lp hp,
      get_interval (2 ^ 8) 8 (fun _ => none)
        ⟨Constr.ule (addP (2 ^ 8) (smulP (2 ^ 8) 3 (varP 0)) (constP (2 ^ 8) 7))
          (constP (2 ^ 8) 0), true⟩ 0 {} = (true, fi') ∧
      fi'.coeff = 1 ∧
      fi'.interval =
        (if true then
          EvalInterval.proper hp (addM (2 ^ 8) (zeroAnchor (2 ^ 8) 3 7) 1)
            lp (zeroAnchor (2 ^ 8) 3 7)
        else
          EvalInterval.proper lp (zeroAnchor (2 ^ 8) 3 7)
            hp (addM (2 ^ 8) (zeroAnchor (2 ^ 8) 3 7) 1)) ∧
      (3 * zeroAnchor (2 ^ 8) 3 7 + 7) % 2 ^ 8 = 0 ∧
      (∀ x, x < 2 ^ 8 →
        (memI (2 ^ 8) x fi'.interval = true ↔
          (if true then x ≠ zeroAnchor (2 ^ 8) 3 7
           else x = zeroAnchor (2 ^ 8) 3 7))) := by
  have h := C2_match_zero_unit_interval 8 (by decide) (fun _ => none) 0
    (addP (2 ^ 8) (smulP (2 ^ 8) 3 (varP 0)) (constP (2 ^ 8) 7)) (constP (2 ^ 8) 0)
    true {} 3 [(7, [])] [(7, [])] [] [] [] [] (by decide) (by decide) (by decide) rfl
  exact h


/-! ### Subtraction cancellation lemmas -/

theorem rawEval_subP_add (M : Nat) (hM : 0 < M) (ρ : Nat → Nat) (p q : Poly) :
    rawEval ρ (subP M p q) + rawEval ρ q ≡ rawEval ρ p [MOD M] := by
  unfold subP
  calc rawEval ρ (addP M p (negP M q)) + rawEval ρ q
      ≡ rawEval ρ p + rawEval ρ (negP M q) + rawEval ρ q [MOD M] :=
        (rawEval_addP M ρ p (negP M q)).add_right _
    _ = rawEval ρ p + (rawEval ρ (negP M q) + rawEval ρ q) := by ring
    _ ≡ rawEval ρ p + 0 [MOD M] := (evalP_negP M hM ρ q).add_left _
    _ = rawEval ρ p := by ring

/-- `1 - (1 - p)` evaluates to `p`. -/
theorem evalP_one_sub_one_sub (M : Nat) (hM : 0 < M) (ρ : Nat → Nat) (p : Poly) :
    evalP M ρ (subP M (constP M 1) (subP M (constP M 1) p)) = evalP M ρ p := by
  have h1 := rawEval_subP_add M hM ρ (constP M 1) (subP M (constP M 1) p)
  have h2 := rawEval_subP_add M hM ρ (constP M 1) p
  have h3 : rawEval ρ (subP M (constP M 1) (subP M (constP M 1) p)) +
      rawEval ρ (subP M (constP M 1) p) ≡
      rawEval ρ p + rawEval ρ (subP M (constP M 1) p) [MOD M] := by
    calc rawEval ρ (subP M (constP M 1) (subP M (constP M 1) p)) +
        rawEval ρ (subP M (constP M 1) p)
        ≡ rawEval ρ (constP M 1) [MOD M] := h1
      _ ≡ rawEval ρ (subP M (constP M 1) p) + rawEval ρ p [MOD M] := h2.symm
      _ = rawEval ρ p + rawEval ρ (subP M (constP M 1) p) := by ring
  exact Nat.ModEq.add_right_cancel' _ h3

theorem subM_one_subM_one (M a : Nat) (ha : a < M) : subM M 1 (subM M 1 a) = a := by
  have hM : 0 < M := by omega
  rcases Nat.lt_or_ge M 2 with h | h
  · have hM1 : M = 1 := by omega
    subst hM1
    simp [subM]
    omega
  · have h1 : subM M 1 a = if a ≤ 1 then 1 - a else 1 + M - a := by
      rw [subM_eq M 1 a (by omega) ha]
    rw [h1]
    by_cases hle : a ≤ 1
    · rw [if_pos hle, subM_eq M 1 (1 - a) (by omega) (by omega)]
      split <;> omega
    · rw [if_neg hle, subM_eq M 1 (1 + M - a) (by omega) (by omega)]
      split <;> omega

/-- Claim C6: the complement-by-negation transform of `to_interval` is an
involution: applied twice (the second time to the transformed coefficient
`2^N - k`), it restores the original interval endpoint values and the
coefficient, and the symbolic endpoints evaluate to the original ones. -/
theorem C6_negTransform_involution (w : Nat) (coeff : Int) (loVal hiVal : Nat)
    (lo hi : Poly) (hlo : loVal < 2 ^ w) (hhi : hiVal < 2 ^ w) (ρ : Nat → Nat) :
    (negTransform (2 ^ w)
      (negTransform (2 ^ w) coeff loVal lo hiVal hi).1
      (negTransform (2 ^ w) coeff loVal lo hiVal hi).2.1
      (negTransform (2 ^ w) coeff loVal lo hiVal hi).2.2.1
      (negTransform (2 ^ w) coeff loVal lo hiVal hi).2.2.2.1
      (negTransform (2 ^ w) coeff loVal lo hiVal hi).2.2.2.2).1 = coeff ∧
    (negTransform (2 ^ w)
      (negTransform (2 ^ w) coeff loVal lo hiVal hi).1
      (negTransform (2 ^ w) coeff loVal lo hiVal hi).2.1
      (negTransform (2 ^ w) coeff loVal lo hiVal hi).2.2.1
      (negTransform (2 ^ w) coeff loVal lo hiVal hi).2.2.2.1
      (negTransform (2 ^ w) coeff loVal lo hiVal hi).2.2.2.2).2.1 = loVal ∧
    (negTransform (2 ^ w)
      (negTransform (2 ^ w) coeff loVal lo hiVal hi).1
      (negTransform (2 ^ w) coeff loVal lo hiVal hi).2.1
      (negTransform (2 ^ w) coeff loVal lo hiVal hi).2.2.1
      (negTransform (2 ^ w) coeff loVal lo hiVal hi).2.2.2.1
      (negTransform (2 ^ w) coeff loVal lo hiVal hi).2.2.2.2).2.2.2.1 = hiVal ∧
    evalP (2 ^ w) ρ (negTransform (2 ^ w)
      (negTransform (2 ^ w) coeff loVal lo hiVal hi).1
      (negTransform (2 ^ w) coeff loVal lo hiVal hi).2.1
      (negTransform (2 ^ w) coeff loVal lo hiVal hi).2.2.1
      (negTransform (2 ^ w) coeff loVal lo hiVal hi).2.2.2.1
      (negTransform (2 ^ w) coeff loVal lo hiVal hi).2.2.2.2).2.2.1 =
      evalP (2 ^ w) ρ lo ∧
    evalP (2 ^ w) ρ (negTransform (2 ^ w)
      (negTransform (2 ^ w) coeff loVal lo hiVal hi).1
      (negTransform (2 ^ w) coeff loVal lo hiVal hi).2.1
      (negTransform (2 ^ w) coeff loVal lo hiVal hi).2.2.1
      (negTransform (2 ^ w) coeff loVal lo hiVal hi).2.2.2.1
      (negTransform (2 ^ w) coeff loVal lo hiVal hi).2.2.2.2).2.2.2.2 =
      evalP (2 ^ w) ρ hi := by
  have hM : 0 < 2 ^ w := Nat.pos_pow_of_pos w (by omega)
  unfold negTransform
  refine ⟨by ring, ?_, ?_, ?_, ?_⟩
  · exact subM_one_subM_one (2 ^ w) loVal hlo
  · exact subM_one_subM_one (2 ^ w) hiVal hhi
  · exact evalP_one_sub_one_sub (2 ^ w) hM ρ lo
  · exact evalP_one_sub_one_sub (2 ^ w) hM ρ hi

theorem C6_negTransform_involution_witness :
    ((negTransform (2 ^ 4)
      (negTransform (2 ^ 4) 11 3 (varP 0) 9 (varP 1)).1
      (negTransform (2 ^ 4) 11 3 (varP 0) 9 (varP 1)).2.1
      (negTransform (2 ^ 4) 11 3 (varP 0) 9 (varP 1)).2.2.1
      (negTransform (2 ^ 4) 11 3 (varP 0) 9 (varP 1)).2.2.2.1
      (negTransform (2 ^ 4) 11 3 (varP 0) 9 (varP 1)).2.2.2.2).1 = 11 ∧ True) := by
  refine ⟨(C6_negTransform_involution 4 11 3 9 (varP 0) (varP 1) (by decide)
    (by decide) (fun _ => 0)).1, trivial⟩

/-- Semantic reading of an equality side condition. -/
theorem cHolds_eq2C (M : Nat) (hM : 0 < M) (ρ : Nat → Nat) (q r : Poly) :
    cHolds M ρ (eq2C M q r) ↔ evalP M ρ q = evalP M ρ r := by
  unfold cHolds eq2C eqC cAtom
  simp only [decide_eq_true_eq]
  rw [evalP_constP]
  rw [Nat.zero_mod]
  rw [Nat.le_zero]
  exact evalP_subP_eq_zero M hM ρ q r

theorem evalP_isVal (M : Nat) (ρ : Nat → Nat) (p : Poly) (h : isVal p = true) :
    evalP M ρ p = pval p % M := by
  unfold evalP
  rw [rawEval_isVal ρ p h]

/-! ### Inversion lemmas for `linear_decompose` -/

theorem linear_decompose_deg0_eq (M : Nat) (σ : Nat → Option Nat) (v : Nat)
    (p : Poly) (hd0 : degV v p = 0) :
    linear_decompose M σ v p = (isVal (substP M σ p), 0, p, substP M σ p, []) := by
  unfold linear_decompose
  rw [if_pos (Or.inl hd0), if_pos hd0]
  rfl

theorem linear_decompose_deg1_val_eq (M : Nat) (σ : Nat → Option Nat) (v : Nat)
    (p : Poly) (hd1 : degV v p = 1) (hq : isVal (factorV v p).1 = true) :
    linear_decompose M σ v p =
      (isVal (substP M σ (factorV v p).2), pval (factorV v p).1, (factorV v p).2,
       substP M σ (factorV v p).2, []) := by
  simp only [linear_decompose, hd1, hq]
  simp [hq]

theorem linear_decompose_deg1_subst_eq (M : Nat) (σ : Nat → Option Nat) (v : Nat)
    (p : Poly) (hd1 : degV v p = 1) (hq : ¬ isVal (factorV v p).1 = true)
    (hr : isVal (substP M σ (factorV v p).1) = true) :
    linear_decompose M σ v p =
      (isVal (substP M σ (factorV v p).2), pval (substP M σ (factorV v p).1),
       (factorV v p).2, substP M σ (factorV v p).2,
       [eq2C M (factorV v p).1 (substP M σ (factorV v p).1)]) := by
  simp only [linear_decompose, hd1, hr]
  simp [hq, hr]

theorem linear_decompose_deg1_fail_eq (M : Nat) (σ : Nat → Option Nat) (v : Nat)
    (p : Poly) (hd1 : degV v p = 1) (hq : ¬ isVal (factorV v p).1 = true)
    (hr : ¬ isVal (substP M σ (factorV v p).1) = true) :
    linear_decompose M σ v p = (false, 0, (factorV v p).1, (factorV v p).2, []) := by
  simp only [linear_decompose, hd1]
  simp [hq, hr]

theorem linear_decompose_deg_fail_eq (M : Nat) (σ : Nat → Option Nat) (v : Nat)
    (p : Poly) (hd : ¬(degV v p = 0 ∨ degV v p = 1)) :
    linear_decompose M σ v p = (false, 0, [], [], []) := by
  unfold linear_decompose
  rw [if_neg hd]

/-- Claim C7: whenever `linear_decompose` succeeds with coefficient `a` and
remainder `e` (and value `b`), the original polynomial is semantically
`a * v + e` modulo `M`, under the emitted coefficient-equality side
condition when the coefficient was not already a constant. -/
theorem C7_linear_decompose_roundtrip (M : Nat) (hM : 0 < M)
    (σ : Nat → Option Nat) (v : Nat) (p : Poly) (ρ : Nat → Nat)
    (a : Nat) (e b : Poly) (δ : List SignedC)
    (h : linear_decompose M σ v p = (true, a, e, b, δ))
    (hsc : ∀ sc ∈ δ, cHolds M ρ sc) :
    evalP M ρ p = (a * ρ v + evalP M ρ e) % M := by
  by_cases hd0 : degV v p = 0
  · rw [linear_decompose_deg0_eq M σ v p hd0] at h
    simp only [Prod.mk.injEq] at h
    obtain ⟨h1, ha, he, hb, hδ⟩ := h
    subst ha he
    unfold evalP
    rw [Nat.zero_mul, Nat.zero_add, Nat.mod_mod_of_dvd _ (dvd_refl M)]
  · by_cases hd1 : degV v p = 1
    · by_cases hq : isVal (factorV v p).1 = true
      · rw [linear_decompose_deg1_val_eq M σ v p hd1 hq] at h
        simp only [Prod.mk.injEq] at h
        obtain ⟨h1, ha, he, hb, hδ⟩ := h
        subst ha he
        have hfac := rawEval_factorV ρ v p
        unfold evalP
        rw [hfac, rawEval_isVal ρ _ hq]
        calc (ρ v * pval (factorV v p).1 + rawEval ρ (factorV v p).2) % M
            = (pval (factorV v p).1 * ρ v + rawEval ρ (factorV v p).2) % M := by
              rw [Nat.mul_comm]
          _ = (pval (factorV v p).1 * ρ v + rawEval ρ (factorV v p).2 % M) % M :=
              ((Nat.mod_modEq _ M).add_left _).symm
      · by_cases hr : isVal (substP M σ (factorV v p).1) = true
        · rw [linear_decompose_deg1_subst_eq M σ v p hd1 hq hr] at h
          simp only [Prod.mk.injEq] at h
          obtain ⟨h1, ha, he, hb, hδ⟩ := h
          subst ha he
          have hcond : cHolds M ρ
              (eq2C M (factorV v p).1 (substP M σ (factorV v p).1)) := by
            apply hsc
            rw [← hδ]
            exact List.mem_singleton.mpr rfl
          have heq : evalP M ρ (factorV v p).1 =
              evalP M ρ (substP M σ (factorV v p).1) :=
            (cHolds_eq2C M hM ρ _ _).mp hcond
          have hval : evalP M ρ (substP M σ (factorV v p).1) =
              pval (substP M σ (factorV v p).1) % M := evalP_isVal M ρ _ hr
          have hfac := rawEval_factorV ρ v p
          have step2 : rawEval ρ (factorV v p).1 % M =
              pval (substP M σ (factorV v p).1) % M := by
            have h' := heq.trans hval
            unfold evalP at h'
            exact h'
          unfold evalP
          rw [hfac]
          have key : ρ v * rawEval ρ (factorV v p).1 + rawEval ρ (factorV v p).2 ≡
              pval (substP M σ (factorV v p).1) * ρ v +
                rawEval ρ (factorV v p).2 % M [MOD M] := by
            refine Nat.ModEq.add ?_ (Nat.mod_modEq _ M).symm
            calc ρ v * rawEval ρ (factorV v p).1
                ≡ ρ v * (rawEval ρ (factorV v p).1 % M) [MOD M] :=
                  (Nat.mod_modEq _ M).symm.mul_left _
              _ = ρ v * (pval (substP M σ (factorV v p).1) % M) := by rw [step2]
              _ ≡ ρ v * pval (substP M σ (factorV v p).1) [MOD M] :=
                  (Nat.mod_modEq _ M).mul_left _
              _ = pval (substP M σ (factorV v p).1) * ρ v := by ring
          exact key
        · rw [linear_decompose_deg1_fail_eq M σ v p hd1 hq hr] at h
          simp only [Prod.mk.injEq] at h
          exact absurd h.1 (by simp)
    · rw [linear_decompose_deg_fail_eq M σ v p (by tauto)] at h
      simp only [Prod.mk.injEq] at h
      exact absurd h.1 (by simp)

theorem C7_linear_decompose_roundtrip_witness :
    evalP (2 ^ 4) (fun _ => 5)
      (addP (2 ^ 4) (smulP (2 ^ 4) 3 (varP 0)) (constP (2 ^ 4) 7)) =
      (3 * (fun _ => (5 : Nat)) 0 + evalP (2 ^ 4) (fun _ => 5) (constP (2 ^ 4) 7)) % 2 ^ 4 :=
  C7_linear_decompose_roundtrip (2 ^ 4) (by decide) (fun _ => none) 0
    (addP (2 ^ 4) (smulP (2 ^ 4) 3 (varP 0)) (constP (2 ^ 4) 7)) (fun _ => 5)
    3 (constP (2 ^ 4) 7) (constP (2 ^ 4) 7) [] (by decide)
    (fun sc hsc => absurd hsc (by simp))


/-- Claim C4 counterexample: on a failing `get_interval` call (the lhs has
degree 2 in the variable, so decomposition fails), the record is NOT left
logically empty: the originating constraint pushed into `src` before the
failure is not rolled back, and `coeff` and `bit_width` keep their
assigned values. -/
theorem C4_src_residue_counterexample :
    (get_interval 4 2 (fun _ => none) (uleC [(1, [0, 0])] (constP 4 0)) 0 {}).1
      = false ∧
    (get_interval 4 2 (fun _ => none) (uleC [(1, [0, 0])] (constP 4 0)) 0 {}).2.src
      = [uleC [(1, [0, 0])] (constP 4 0)] ∧
    (get_interval 4 2 (fun _ => none) (uleC [(1, [0, 0])] (constP 4 0)) 0 {}).2.coeff
      = 1 ∧
    (get_interval 4 2 (fun _ => none) (uleC [(1, [0, 0])] (constP 4 0)) 0 {}).2.bitWidth
      = 2 := by
  decide

/-- On failure, `umul_ovfl_core2` returns precisely the rollback record. -/
theorem umul_ovfl_core2_false (M : Nat) (c : SignedC) (fi1 : FiRecord)
    (entry : Nat) (a1 : Nat) (e1 b1 : Poly) (a2 : Nat) (e2 b2 : Poly)
    (fi' : FiRecord)
    (h : umul_ovfl_core2 M c fi1 entry a1 e1 b1 a2 e2 b2 = (false, fi')) :
    fi' = { fi1 with sideCond := fi1.sideCond.take entry } := by
  simp only [umul_ovfl_core2] at h
  repeat' split at h
  all_goals injection h with h1 h2
  all_goals
    first
    | exact Bool.noConfusion h1
    | exact h2.symm

/-- On failure, `umul_ovfl_core1` returns precisely the rollback record. -/
theorem umul_ovfl_core1_false (M : Nat) (c : SignedC) (fi1 : FiRecord)
    (entry : Nat) (ok1 : Bool) (a1 : Nat) (e1 b1 : Poly)
    (ok2 : Bool) (a2 : Nat) (e2 b2 : Poly) (fi' : FiRecord)
    (h : umul_ovfl_core1 M c fi1 entry ok1 a1 e1 b1 ok2 a2 e2 b2 = (false, fi')) :
    fi' = { fi1 with sideCond := fi1.sideCond.take entry } := by
  unfold umul_ovfl_core1 at h
  split at h
  · exact Bool.noConfusion (Prod.mk.injEq .. ▸ h :
      (true = false ∧ _)).1
  · split at h
    · injection h with h1 h2
      exact h2.symm
    · split at h
      · exact umul_ovfl_core2_false M c fi1 entry a2 e2 b2 a1 e1 b1 fi' h
      · exact umul_ovfl_core2_false M c fi1 entry a1 e1 b1 a2 e2 b2 fi' h

/-- Claim C4 (amended): on failure, the mutation that IS rolled back is
exactly the side-condition list (truncated to its length on entry via
`List.take`) and the interval is untouched; `src`, `coeff` and `bit_width`
may keep values assigned during the failed attempt. -/
theorem C4_failure_truncates_side_conditions (M w : Nat) (σ : Nat → Option Nat)
    (c : SignedC) (v : Nat) (fi fi' : FiRecord)
    (h : get_interval M w σ c v fi = (false, fi')) :
    fi'.sideCond = fi.sideCond ∧ fi'.interval = fi.interval := by
  obtain ⟨cns, pos⟩ := c
  cases cns with
  | ule L R =>
    rcases h1 : linear_decompose M σ v L with ⟨ok1, a1, e1, b1, d1⟩
    rcases h2 : linear_decompose M σ v R with ⟨ok2, a2, e2, b2, d2⟩
    simp only [get_interval] at h
    rw [get_interval_ule_chain M σ ⟨Constr.ule L R, pos⟩ L R v
        { fi with bitWidth := w } ok1 a1 e1 b1 d1 ok2 a2 e2 b2 d2 h1 h2] at h
    split at h
    · simp only [Prod.mk.injEq] at h
      obtain ⟨-, h'⟩ := h
      subst h'
      refine ⟨?_, rfl⟩
      show (fi.sideCond ++ d1 ++ d2).take fi.sideCond.length = fi.sideCond
      rw [List.append_assoc]
      exact List.take_left _ _
    · split at h
      · exact absurd h (by simp)
      · simp only [Prod.mk.injEq] at h
        obtain ⟨-, h'⟩ := h
        subst h'
        refine ⟨?_, rfl⟩
        show (fi.sideCond ++ d1 ++ d2).take fi.sideCond.length = fi.sideCond
        rw [List.append_assoc]
        exact List.take_left _ _
  | umulOvfl P Q =>
    rcases h1 : linear_decompose M σ v P with ⟨ok1, a1, e1, b1, d1⟩
    rcases h2 : linear_decompose M σ v Q with ⟨ok2, a2, e2, b2, d2⟩
    simp only [get_interval] at h
    unfold get_interval_umul_ovfl at h
    rw [h1, h2] at h
    dsimp only [] at h
    split at h
    all_goals
      have h' := umul_ovfl_core1_false _ _ _ _ _ _ _ _ _ _ _ _ _ h
      subst h'
      refine ⟨?_, rfl⟩
      show (fi.sideCond ++ d1 ++ d2).take fi.sideCond.length = fi.sideCond
      rw [List.append_assoc]
      exact List.take_left _ _

/-- Witness for C4 (amended): a concrete failing `get_interval` call whose
result record keeps the entry side-condition list and interval. -/
theorem C4_failure_truncates_side_conditions_witness :
    (get_interval 4 2 (fun _ => none) (uleC [(1, [0, 0])] (constP 4 0)) 0 {}).2.sideCond
      = ({} : FiRecord).sideCond ∧
    (get_interval 4 2 (fun _ => none) (uleC [(1, [0, 0])] (constP 4 0)) 0 {}).2.interval
      = ({} : FiRecord).interval :=
  C4_failure_truncates_side_conditions 4 2 (fun _ => none)
    (uleC [(1, [0, 0])] (constP 4 0)) 0 {} _ (by decide)

/-- `firstSome` returns the result of the first function in the list that
succeeds: if entry `k` yields `some r` and every earlier entry yields
`none`, the scan returns `some r`. -/
theorem firstSome_first_match (fs : List (FiRecord → Option FiRecord))
    (fi : FiRecord) (k : Nat) (hk : k < fs.length) (r : FiRecord)
    (hm : fs.get ⟨k, hk⟩ fi = some r)
    (he : ∀ f ∈ fs.take k, f fi = none) :
    firstSome fs fi = some r := by
  induction fs generalizing k with
  | nil => exact absurd hk (Nat.not_lt_zero k)
  | cons f rest ih =>
    cases k with
    | zero =>
      simp only [List.get] at hm
      simp [firstSome, hm]
    | succ k =>
      have hf : f fi = none := he f (by simp)
      simp only [firstSome, hf]
      exact ih k (Nat.lt_of_succ_lt_succ hk) hm
        (fun g hg => he g (by simp [hg]))

/-- Counterexample for Claim C5: the non-zero pattern is NEVER consulted.
For the negated constraint `¬(v ≤ y)` with `y` unassigned, the left side
decomposes to the bare variable and `match_non_zero` (called as the source
would call it, with the right side as `q`) matches — yet `get_interval`
fails, because the `match_non_zero`/`match_non_max` trials are disabled by
`false &&` in the source and the failed right decomposition then aborts. -/
theorem C5_non_zero_skipped_counterexample :
    (get_interval 4 2 (fun _ => none)
        { cns := Constr.ule (varP 0) (varP 1), pos := false } 0 {}).1 = false ∧
    (match_non_zero 4 { cns := Constr.ule (varP 0) (varP 1), pos := false }
        1 [] [] (varP 1) {}).isSome = true := by
  decide

/-- Claim C5 (amended): on the ULE path, after both linear decompositions
succeed and not both coefficients are zero, the matcher tries the SIX
enabled structural patterns in the fixed priority order `match_zero`,
`match_max`, `match_linear1`, `match_linear2`, `match_linear3`,
`match_linear4`, and the first pattern that matches determines the result;
later patterns are not consulted after a match.  (The non-zero/non-max
patterns of the original claim are disabled by `false &&` in the source
and are never consulted.) -/
theorem C5_pattern_priority (M : Nat) (σ : Nat → Option Nat) (c : SignedC)
    (L R : Poly) (v : Nat) (fi : FiRecord)
    (ok1 : Bool) (a1 : Nat) (e1 b1 : Poly) (d1 : List SignedC)
    (ok2 : Bool) (a2 : Nat) (e2 b2 : Poly) (d2 : List SignedC)
    (h1 : linear_decompose M σ v L = (ok1, a1, e1, b1, d1))
    (h2 : linear_decompose M σ v R = (ok2, a2, e2, b2, d2))
    (hok : ¬(ok1 = false ∨ ok2 = false ∨ (a1 = 0 ∧ a2 = 0)))
    (k : Nat) (hk : k < (ule_patterns M c a1 b1 e1 a2 b2 e2).length)
    (r : FiRecord)
    (hm : (ule_patterns M c a1 b1 e1 a2 b2 e2).get ⟨k, hk⟩
        { fi with coeff := 1, src := fi.src ++ [c],
                  sideCond := fi.sideCond ++ d1 ++ d2 } = some r)
    (he : ∀ f ∈ (ule_patterns M c a1 b1 e1 a2 b2 e2).take k,
        f { fi with coeff := 1, src := fi.src ++ [c],
                    sideCond := fi.sideCond ++ d1 ++ d2 } = none) :
    get_interval_ule M σ c L R v fi = (true, r) := by
  rw [get_interval_ule_chain M σ c L R v fi ok1 a1 e1 b1 d1 ok2 a2 e2 b2 d2 h1 h2,
    if_neg hok,
    firstSome_first_match (ule_patterns M c a1 b1 e1 a2 b2 e2) _ k hk r hm he]

/-- Witness for C5 (amended): for `v + 1 = 0` at width 2 the first
pattern (`match_zero`) matches and determines the result. -/
theorem C5_pattern_priority_witness :
    get_interval_ule 4 (fun _ => none)
        (uleC (addP 4 (varP 0) (constP 4 1)) (constP 4 0))
        (addP 4 (varP 0) (constP 4 1)) (constP 4 0) 0 {} =
      (true, { interval := EvalInterval.proper
                 (addP 4 (smulP 4 (invM 4 1) (negP 4 [(1, [])])) (constP 4 1))
                 (addM 4 (mulM 4 (negM 4 1) (invM 4 1)) 1)
                 (smulP 4 (invM 4 1) (negP 4 [(1, [])]))
                 (mulM 4 (negM 4 1) (invM 4 1))
               sideCond := []
               src := [uleC (addP 4 (varP 0) (constP 4 1)) (constP 4 0)]
               deps := []
               coeff := 1
               bitWidth := 0 }) :=
  C5_pattern_priority 4 (fun _ => none)
    (uleC (addP 4 (varP 0) (constP 4 1)) (constP 4 0))
    (addP 4 (varP 0) (constP 4 1)) (constP 4 0) 0 {}
    true 1 [(1, [])] [(1, [])] [] true 0 [] [] []
    (by decide) (by decide) (by decide) 0 (by decide) _
    rfl (by simp)

/-- Counterexample for Claim C9: in the one-sided overflow branch the
record DOES carry side conditions — those appended by the linear
decompositions are retained.  For `umul_ovfl(v, y*v + z)` with `y ↦ 1` and
`z` unassigned at width 2, `get_interval` succeeds with interval `[0, 2)`
but the side-condition list is nonempty (it records `y = 1`). -/
theorem C9_side_conds_counterexample :
    (get_interval 4 2 (fun n => if n = 1 then some 1 else none)
        { cns := Constr.umulOvfl (varP 0) [(1, [0, 1]), (1, [2])], pos := true }
        0 {}).1 = true ∧
    (get_interval 4 2 (fun n => if n = 1 then some 1 else none)
        { cns := Constr.umulOvfl (varP 0) [(1, [0, 1]), (1, [2])], pos := true }
        0 {}).2.interval = EvalInterval.proper [] 0 [(2, [])] 2 ∧
    (get_interval 4 2 (fun n => if n = 1 then some 1 else none)
        { cns := Constr.umulOvfl (varP 0) [(1, [0, 1]), (1, [2])], pos := true }
        0 {}).2.sideCond ≠ [] := by
  decide

/-- Claim C9 (amended): for a positive `umul_ovfl` constraint where one
operand linearly decomposes to the bare variable (coefficient 1, zero
offset) and the decomposition of the other operand fails, `get_interval`
nevertheless succeeds, returning the proper forbidden interval `[0, 2)` —
forbidding `v = 0` and `v = 1` — with no side conditions added beyond
those already appended by the two linear decompositions.  Both operand
orders are covered (the source swaps the decompositions when the second
one is the successful one). -/
theorem C9_one_sided_overflow (M w : Nat) (σ : Nat → Option Nat)
    (P Q : Poly) (v : Nat) (fi : FiRecord)
    (e1 : Poly) (d1 : List SignedC)
    (a2 : Nat) (e2 b2 : Poly) (d2 : List SignedC)
    (h1 : linear_decompose M σ v P = (true, 1, e1, [], d1))
    (h2 : linear_decompose M σ v Q = (false, a2, e2, b2, d2)) :
    get_interval M w σ { cns := Constr.umulOvfl P Q, pos := true } v fi =
      (true, { fi with
               bitWidth := w
               coeff := 1
               src := fi.src ++ [{ cns := Constr.umulOvfl P Q, pos := true }]
               sideCond := fi.sideCond ++ d1 ++ d2
               interval := EvalInterval.proper (constP M 0) 0 (constP M 2) 2 }) ∧
    get_interval M w σ { cns := Constr.umulOvfl Q P, pos := true } v fi =
      (true, { fi with
               bitWidth := w
               coeff := 1
               src := fi.src ++ [{ cns := Constr.umulOvfl Q P, pos := true }]
               sideCond := fi.sideCond ++ d2 ++ d1
               interval := EvalInterval.proper (constP M 0) 0 (constP M 2) 2 }) := by
  constructor
  · simp only [get_interval]
    unfold get_interval_umul_ovfl
    rw [h1, h2]
    simp [umul_ovfl_core1, isZeroP]
  · simp only [get_interval]
    unfold get_interval_umul_ovfl
    rw [h1, h2]
    simp [umul_ovfl_core1, isZeroP]

/-- Witness for C9 (amended): the concrete scenario `umul_ovfl(v, y*v+z)`
with `y ↦ 1`, `z` unassigned, at width 2. -/
theorem C9_one_sided_overflow_witness :
    get_interval 4 2 (fun n => if n = 1 then some 1 else none)
        { cns := Constr.umulOvfl (varP 0) [(1, [0, 1]), (1, [2])], pos := true }
        0 {} =
      (true, { interval := EvalInterval.proper (constP 4 0) 0 (constP 4 2) 2
               sideCond := [eq2C 4 [(1, [1])] [(1, [])]]
               src := [{ cns := Constr.umulOvfl (varP 0) [(1, [0, 1]), (1, [2])],
                         pos := true }]
               deps := []
               coeff := 1
               bitWidth := 2 }) ∧
    get_interval 4 2 (fun n => if n = 1 then some 1 else none)
        { cns := Constr.umulOvfl [(1, [0, 1]), (1, [2])] (varP 0), pos := true }
        0 {} =
      (true, { interval := EvalInterval.proper (constP 4 0) 0 (constP 4 2) 2
               sideCond := [eq2C 4 [(1, [1])] [(1, [])]]
               src := [{ cns := Constr.umulOvfl [(1, [0, 1]), (1, [2])] (varP 0),
                         pos := true }]
               deps := []
               coeff := 1
               bitWidth := 2 }) :=
  C9_one_sided_overflow 4 2 (fun n => if n = 1 then some 1 else none)
    (varP 0) [(1, [0, 1]), (1, [2])] 0 {}
    [] [] 1 [(1, [2])] [(1, [2])] [eq2C 4 [(1, [1])] [(1, [])]]
    (by decide) (by decide)

/-- Claim C8: for a non-strict falsified inequality `p ≤ q` mentioning the
target variable, if the unsat core contains a positive `ule` constraint
that is syntactically the mirror inequality (left side equal to `q`, right
side equal to `p`), then `propagate_infer_equality` propagates the
equality `p = q`, justified by the matched core constraint's identifier
and the inequality's own identifier. -/
theorem C8_infer_equality (M : Nat) (core : List (Nat × SignedC)) (x : Nat)
    (i : Ineq) (cid0 : Nat)
    (hstrict : i.strict = false)
    (hdeg : ¬(degV x i.lhs = 0 ∧ degV x i.rhs = 0))
    (hmem : (cid0, ({ cns := Constr.ule i.rhs i.lhs, pos := true } : SignedC))
      ∈ core) :
    ∃ cid, (cid, ({ cns := Constr.ule i.rhs i.lhs, pos := true } : SignedC))
        ∈ core ∧
      propagate_infer_equality M core x i =
        some (eq2C M i.lhs i.rhs, [cid, i.cid]) := by
  unfold propagate_infer_equality match_core
  rw [hstrict]
  simp only [Bool.false_eq_true, if_false, if_neg hdeg]
  have hex : ∃ t ∈ core, ((fun sc : SignedC =>
      match sc.cns with
      | Constr.ule l r => sc.pos && decide (l = i.rhs) && decide (r = i.lhs)
      | _ => false) t.2) = true :=
    ⟨(cid0, { cns := Constr.ule i.rhs i.lhs, pos := true }), hmem, by simp⟩
  obtain ⟨t, ht⟩ := Option.isSome_iff_exists.mp (List.find?_isSome.mpr hex)
  have hpt := List.find?_some ht
  have hmemt := List.mem_of_find?_eq_some ht
  obtain ⟨cid, sc⟩ := t
  obtain ⟨cns, pos⟩ := sc
  cases cns with
  | ule l r =>
    simp only [Bool.and_eq_true, decide_eq_true_eq] at hpt
    obtain ⟨⟨hpos, hl⟩, hr⟩ := hpt
    subst hl
    subst hr
    subst hpos
    exact ⟨cid, hmemt, by rw [ht]⟩
  | umulOvfl p q => exact absurd hpt (by simp)

/-- Witness for C8: the inequality `v ≤ 1` (non-strict, id 5) with the
mirror `1 ≤ v` (id 9) in the core propagates `v = 1` from ids 9 and 5. -/
theorem C8_infer_equality_witness :
    ∃ cid, (cid, ({ cns := Constr.ule (constP 4 1) (varP 0), pos := true }
        : SignedC)) ∈
        [(9, ({ cns := Constr.ule (constP 4 1) (varP 0), pos := true }
          : SignedC))] ∧
      propagate_infer_equality 4
        [(9, { cns := Constr.ule (constP 4 1) (varP 0), pos := true })] 0
        ⟨varP 0, constP 4 1, false, 5⟩ =
        some (eq2C 4 (varP 0) (constP 4 1), [cid, 5]) :=
  C8_infer_equality 4
    [(9, { cns := Constr.ule (constP 4 1) (varP 0), pos := true })] 0
    ⟨varP 0, constP 4 1, false, 5⟩ 9 rfl (by decide) (by decide)

/-- Claim C10: when `try_ugt_x` matches a falsified inequality
`y*x ⋚ z*x` pivoted on `x`, the strict form learns
`Ω*(x,y) ∨ y < z` while the non-strict form learns
`Ω*(x,y) ∨ x = 0 ∨ y ≤ z`, carrying the extra disjunct `x = 0`
(the premise dependency leads the clause in both cases). -/
theorem C10_ugt_x_clause_shapes (M v : Nat) (i : Ineq) (y z : Poly)
    (hxy : is_xY_l_xZ v i = some (y, z)) :
    try_ugt_x M v i =
      some (if i.strict then
              [ClauseLit.dep i.cid, ClauseLit.lit (umulOvflC (varP v) y),
               ClauseLit.lit (ultC y z)]
            else
              [ClauseLit.dep i.cid, ClauseLit.lit (umulOvflC (varP v) y),
               ClauseLit.lit (eqC M (varP v)), ClauseLit.lit (uleC y z)]) := by
  unfold try_ugt_x
  rw [hxy]
  cases hs : i.strict <;> simp [hs]

/-- Witness for C10: `y*x < z*x` (strict) and `y*x ≤ z*x` (non-strict)
pivoted on `x = v0`, with `y = v1`, `z = v2`. -/
theorem C10_ugt_x_clause_shapes_witness :
    try_ugt_x 4 0 ⟨[(1, [0, 1])], [(1, [0, 2])], true, 7⟩ =
      some [ClauseLit.dep 7, ClauseLit.lit (umulOvflC (varP 0) [(1, [1])]),
            ClauseLit.lit (ultC [(1, [1])] [(1, [2])])] ∧
    try_ugt_x 4 0 ⟨[(1, [0, 1])], [(1, [0, 2])], false, 7⟩ =
      some [ClauseLit.dep 7, ClauseLit.lit (umulOvflC (varP 0) [(1, [1])]),
            ClauseLit.lit (eqC 4 (varP 0)),
            ClauseLit.lit (uleC [(1, [1])] [(1, [2])])] :=
  ⟨C10_ugt_x_clause_shapes 4 0 ⟨[(1, [0, 1])], [(1, [0, 2])], true, 7⟩
      [(1, [1])] [(1, [2])] (by decide),
   C10_ugt_x_clause_shapes 4 0 ⟨[(1, [0, 1])], [(1, [0, 2])], false, 7⟩
      [(1, [1])] [(1, [2])] (by decide)⟩

/-! ### Infrastructure for matcher soundness (inside direction) -/

theorem modeq_eq_of_lt (M a b : Nat) (h : a ≡ b [MOD M]) (ha : a < M)
    (hb : b < M) : a = b := by
  unfold Nat.ModEq at h
  rwa [Nat.mod_eq_of_lt ha, Nat.mod_eq_of_lt hb] at h

theorem evalP_lt (M : Nat) (hM : 0 < M) (ρ : Nat → Nat) (p : Poly) :
    evalP M ρ p < M := Nat.mod_lt _ hM

theorem add_mod_cases (M a b : Nat) (ha : a < M) (hb : b < M) :
    (a + b) % M = if a + b < M then a + b else a + b - M := by
  split_ifs with h
  · exact Nat.mod_eq_of_lt h
  · rw [Nat.mod_eq_sub_mod (by omega), Nat.mod_eq_of_lt (by omega)]

/-- Wrapping-interval membership as a linear-arithmetic proposition. -/
theorem subM_lt_subM_iff (M x l h : Nat) (hx : x < M) (hl : l < M)
    (hh : h < M) :
    (subM M x l < subM M h l) ↔
      ((l ≤ x ∧ l ≤ h ∧ x < h) ∨ (l ≤ x ∧ h < l) ∨
       (x < l ∧ h < l ∧ x < h)) := by
  rw [subM_eq M x l hx hl, subM_eq M h l hh hl]
  split_ifs <;> omega

theorem negM_cases (M A : Nat) (hA : A < M) :
    negM M A = if A = 0 then 0 else M - A := by
  rw [negM_eq, Nat.mod_eq_of_lt hA]
  split_ifs with h
  · simp [h]
  · exact Nat.mod_eq_of_lt (by omega)

theorem subM_add_cancel (M a b : Nat) (hM : 0 < M) :
    subM M a b + b ≡ a [MOD M] := by
  have hb := Nat.mod_lt b hM
  calc subM M a b + b
      ≡ (a % M + (M - b % M)) + b [MOD M] := (Nat.mod_modEq _ M).add_right b
    _ ≡ (a % M + (M - b % M)) + b % M [MOD M] :=
        (Nat.mod_modEq b M).symm.add_left _
    _ = a % M + M := by omega
    _ ≡ a % M [MOD M] := by
        unfold Nat.ModEq
        rw [Nat.add_mod_right]
    _ ≡ a [MOD M] := Nat.mod_modEq a M

/-- Cancellation by an invertible coefficient. -/
theorem invM_cancel (M a x n : Nat) (hM : 0 < M) (hg : Nat.gcd a M = 1)
    (h : a * x ≡ a * n [MOD M]) (hx : x < M) (hn : n < M) : x = n := by
  have hinv := mul_invM_modeq M a hM hg
  have h1 : invM M a * (a * x) ≡ invM M a * (a * n) [MOD M] := h.mul_left _
  have h2 : ∀ y : Nat, invM M a * (a * y) = (a * invM M a) * y := by
    intro y; ring
  rw [h2 x, h2 n] at h1
  have h3 : (a * invM M a) * x ≡ 1 * x [MOD M] := hinv.mul_right x
  have h4 : (a * invM M a) * n ≡ 1 * n [MOD M] := hinv.mul_right n
  have h5 : x ≡ n [MOD M] := by
    have := (h3.symm.trans h1).trans h4
    simpa using this
  exact modeq_eq_of_lt M x n h5 hx hn

/-- Multiplying the anchor `s * a⁻¹` by `a` recovers `s`. -/
theorem anchor_mul (M a s : Nat) (hM : 0 < M) (hg : Nat.gcd a M = 1) :
    a * mulM M s (invM M a) ≡ s [MOD M] := by
  have hinv := mul_invM_modeq M a hM hg
  calc a * mulM M s (invM M a)
      ≡ a * (s * invM M a) [MOD M] := (mulM_modeq M _ _).mul_left a
    _ = (a * invM M a) * s := by ring
    _ ≡ 1 * s [MOD M] := hinv.mul_right s
    _ = s := Nat.one_mul s

/-- The product by the negated coefficient is the negated product. -/
theorem mulM_neg_coeff (M k x : Nat) (hM : 0 < M) (hk : k ≤ M) :
    mulM M (M - k) x = negM M (mulM M k x) := by
  have h1 : mulM M (M - k) x + mulM M k x ≡ 0 [MOD M] := by
    calc mulM M (M - k) x + mulM M k x
        ≡ (M - k) * x + k * x [MOD M] :=
          (mulM_modeq M _ _).add (mulM_modeq M _ _)
      _ = M * x := by
          have : (M - k) * x + k * x = ((M - k) + k) * x := by ring
          rw [this, Nat.sub_add_cancel hk]
      _ ≡ 0 [MOD M] := (Nat.modEq_zero_iff_dvd).mpr ⟨x, rfl⟩
  have h2 : negM M (mulM M k x) + mulM M k x ≡ 0 [MOD M] :=
    negM_add_modeq M _ hM
  have h3 : mulM M (M - k) x ≡ negM M (mulM M k x) [MOD M] :=
    Nat.ModEq.add_right_cancel' _ (h1.trans h2.symm)
  exact modeq_eq_of_lt M _ _ h3 (mulM_lt M hM _ _) (subM_lt M hM _ _)

/-- Membership of `-A` in the negated interval `[1-h, 1-l)` gives
membership of `A` in `[l, h)`. -/
theorem mem_neg_flip (M A l h : Nat) (hM : 1 < M) (hA : A < M) (hl : l < M)
    (hh : h < M)
    (hmem : subM M (negM M A) (subM M 1 h) <
      subM M (subM M 1 l) (subM M 1 h)) :
    subM M A l < subM M h l := by
  have hM0 : 0 < M := by omega
  have e1 := negM_cases M A hA
  have e2 : subM M 1 h = if h ≤ 1 then 1 - h else 1 + M - h :=
    subM_eq M 1 h hM hh
  have e3 : subM M 1 l = if l ≤ 1 then 1 - l else 1 + M - l :=
    subM_eq M 1 l hM hl
  rw [subM_lt_subM_iff M (negM M A) (subM M 1 h) (subM M 1 l)
    (subM_lt M hM0 _ _) (subM_lt M hM0 _ _) (subM_lt M hM0 _ _)] at hmem
  rw [subM_lt_subM_iff M A l h hA hl hh]
  rw [e1, e2, e3] at hmem
  split_ifs at hmem <;> omega

theorem mulM_one_left (M x : Nat) (hM : 1 < M) (hx : x < M) :
    mulM M 1 x = x := by
  unfold mulM
  rw [Nat.mod_eq_of_lt hM, Nat.one_mul, Nat.mod_mod_of_dvd _ (dvd_refl M),
    Nat.mod_eq_of_lt hx]

/-- Semantic content of a successful `linear_decompose`: the polynomial
evaluates to `a * v + b` mod `M`, the remainder evaluates to `b`, and the
outputs are reduced. -/
theorem decompose_sound (M : Nat) (hM : 0 < M) (σ : Nat → Option Nat)
    (ρ : Nat → Nat) (hagree : agrees σ ρ) (v : Nat) (p : Poly) (hwf : wfP M p)
    (a : Nat) (e b : Poly) (d : List SignedC)
    (h : linear_decompose M σ v p = (true, a, e, b, d))
    (hd : ∀ sc ∈ d, cHolds M ρ sc) :
    evalP M ρ p = (a * ρ v + pval b) % M ∧
    evalP M ρ e = pval b % M ∧
    isVal b = true ∧ a < M ∧ pval b < M ∧ wfP M b := by
  have hsub : ∀ q : Poly, evalP M ρ (substP M σ q) = evalP M ρ q :=
    fun q => evalP_substP M σ ρ hagree q
  by_cases hd0 : degV v p = 0
  · rw [linear_decompose_deg0_eq M σ v p hd0] at h
    simp only [Prod.mk.injEq] at h
    obtain ⟨h1, ha, he, hb, hδ⟩ := h
    subst ha he hb
    have hv : isVal (substP M σ p) = true := h1
    have hwfb : wfP M (substP M σ p) := wfP_substP M hM σ p
    have hbv : evalP M ρ (substP M σ p) = pval (substP M σ p) % M :=
      evalP_isVal M ρ _ hv
    have hpb : pval (substP M σ p) < M := pval_lt M hM _ hwfb
    refine ⟨?_, ?_, hv, hM, hpb, hwfb⟩
    · rw [Nat.zero_mul, Nat.zero_add, ← hbv, hsub]
    · rw [← hbv, hsub]
  · by_cases hd1 : degV v p = 1
    · by_cases hq : isVal (factorV v p).1 = true
      · rw [linear_decompose_deg1_val_eq M σ v p hd1 hq] at h
        simp only [Prod.mk.injEq] at h
        obtain ⟨h1, ha, he, hb, hδ⟩ := h
        subst ha he hb
        have hv : isVal (substP M σ (factorV v p).2) = true := h1
        have hwfb : wfP M (substP M σ (factorV v p).2) := wfP_substP M hM σ _
        have hpb : pval (substP M σ (factorV v p).2) < M := pval_lt M hM _ hwfb
        have hwq : wfP M (factorV v p).1 := (wfP_factorV M v p hwf).1
        have haM : pval (factorV v p).1 < M := pval_lt M hM _ hwq
        have he2 : evalP M ρ (factorV v p).2 =
            pval (substP M σ (factorV v p).2) % M := by
          rw [← hsub, evalP_isVal M ρ _ hv]
        refine ⟨?_, he2, hv, haM, hpb, hwfb⟩
        have hfac := rawEval_factorV ρ v p
        unfold evalP
        rw [hfac, rawEval_isVal ρ _ hq]
        have : ρ v * pval (factorV v p).1 + rawEval ρ (factorV v p).2 ≡
            pval (factorV v p).1 * ρ v +
              pval (substP M σ (factorV v p).2) [MOD M] := by
          refine Nat.ModEq.add (by rw [Nat.mul_comm]) ?_
          have := he2
          unfold evalP at this
          calc rawEval ρ (factorV v p).2
              ≡ rawEval ρ (factorV v p).2 % M [MOD M] := (Nat.mod_modEq _ M).symm
            _ = pval (substP M σ (factorV v p).2) % M := this
            _ ≡ pval (substP M σ (factorV v p).2) [MOD M] := Nat.mod_modEq _ M
        exact this
      · by_cases hr : isVal (substP M σ (factorV v p).1) = true
        · rw [linear_decompose_deg1_subst_eq M σ v p hd1 hq hr] at h
          simp only [Prod.mk.injEq] at h
          obtain ⟨h1, ha, he, hb, hδ⟩ := h
          subst ha he hb
          have hv : isVal (substP M σ (factorV v p).2) = true := h1
          have hwfb : wfP M (substP M σ (factorV v p).2) := wfP_substP M hM σ _
          have hpb : pval (substP M σ (factorV v p).2) < M := pval_lt M hM _ hwfb
          have hwr : wfP M (substP M σ (factorV v p).1) := wfP_substP M hM σ _
          have haM : pval (substP M σ (factorV v p).1) < M := pval_lt M hM _ hwr
          have hcond : cHolds M ρ
              (eq2C M (factorV v p).1 (substP M σ (factorV v p).1)) := by
            apply hd
            rw [← hδ]
            exact List.mem_singleton.mpr rfl
          have heq : evalP M ρ (factorV v p).1 =
              evalP M ρ (substP M σ (factorV v p).1) :=
            (cHolds_eq2C M hM ρ _ _).mp hcond
          have hval : evalP M ρ (substP M σ (factorV v p).1) =
              pval (substP M σ (factorV v p).1) % M := evalP_isVal M ρ _ hr
          have he2 : evalP M ρ (factorV v p).2 =
              pval (substP M σ (factorV v p).2) % M := by
            rw [← hsub, evalP_isVal M ρ _ hv]
          refine ⟨?_, he2, hv, haM, hpb, hwfb⟩
          have hfac := rawEval_factorV ρ v p
          unfold evalP
          rw [hfac]
          have hq1 : rawEval ρ (factorV v p).1 ≡
              pval (substP M σ (factorV v p).1) [MOD M] := by
            have h' := heq.trans hval
            unfold evalP at h'
            calc rawEval ρ (factorV v p).1
                ≡ rawEval ρ (factorV v p).1 % M [MOD M] := (Nat.mod_modEq _ M).symm
              _ = pval (substP M σ (factorV v p).1) % M := h'
              _ ≡ pval (substP M σ (factorV v p).1) [MOD M] := Nat.mod_modEq _ M
          have he1 : rawEval ρ (factorV v p).2 ≡
              pval (substP M σ (factorV v p).2) [MOD M] := by
            have := he2
            unfold evalP at this
            calc rawEval ρ (factorV v p).2
                ≡ rawEval ρ (factorV v p).2 % M [MOD M] := (Nat.mod_modEq _ M).symm
              _ = pval (substP M σ (factorV v p).2) % M := this
              _ ≡ pval (substP M σ (factorV v p).2) [MOD M] := Nat.mod_modEq _ M
          calc ρ v * rawEval ρ (factorV v p).1 + rawEval ρ (factorV v p).2
              ≡ ρ v * pval (substP M σ (factorV v p).1) +
                  pval (substP M σ (factorV v p).2) [MOD M] :=
                Nat.ModEq.add (hq1.mul_left _) he1
            _ = pval (substP M σ (factorV v p).1) * ρ v +
                  pval (substP M σ (factorV v p).2) := by ring_nf
        · rw [linear_decompose_deg1_fail_eq M σ v p hd1 hq hr] at h
          simp only [Prod.mk.injEq] at h
          exact absurd h.1 (by simp)
    · rw [linear_decompose_deg_fail_eq M σ v p (by tauto)] at h
      simp only [Prod.mk.injEq] at h
      exact absurd h.1 (by simp)

/-- In the trivial test of `match_linear1`, `b2 + 1 = 0` (as polynomials)
forces the value `M - 1`. -/
theorem isZero_addP_one (M : Nat) (hM : 1 < M) (b : Poly)
    (hv : isVal b = true) (hwf : wfP M b)
    (hz : isZeroP (addP M b (constP M 1)) = true) : pval b = M - 1 := by
  have hc1 : constP M 1 = [(1, [])] := by
    unfold constP insertTerm
    rw [Nat.mod_eq_of_lt hM]
    simp
  match b, hv with
  | [], _ =>
    unfold addP at hz
    rw [hc1] at hz
    simp [isZeroP] at hz
  | [(c, [])], _ =>
    have hcb := hwf (c, []) (List.mem_cons_self _ _)
    unfold addP at hz
    rw [hc1] at hz
    simp only [List.foldr] at hz
    unfold insertTerm at hz
    rw [if_pos rfl] at hz
    by_cases h0 : (c + 1) % M = 0
    · have : c + 1 = M := by
        rcases Nat.lt_or_ge (c + 1) M with h | h
        · rw [Nat.mod_eq_of_lt h] at h0; omega
        · have : c + 1 - M < M := by omega
          rw [Nat.mod_eq_sub_mod h, Nat.mod_eq_of_lt this] at h0
          omega
      simp [pval]
      omega
    · rw [if_neg h0] at hz
      simp [isZeroP] at hz
  | [(c, x :: m)], hv => simp [isVal] at hv
  | (c, m) :: t :: rest, hv => simp [isVal] at hv

/-- `match_linear4` marks its record with the `diseq_lin` sentinel. -/
theorem match_linear4_coeff (M : Nat) (c : SignedC) (a1 : Nat) (b1 e1 : Poly)
    (a2 : Nat) (b2 e2 : Poly) (fi1 fi' : FiRecord)
    (hm : match_linear4 M c a1 b1 e1 a2 b2 e2 fi1 = some fi') :
    fi'.coeff = -1 := by
  unfold match_linear4 at hm
  split at hm
  · simp only [Option.some.injEq] at hm
    subst hm
    unfold add_non_unit_side_conds to_interval
    split
    · split <;> rfl
    · have : ¬((M : Int) / 2 < -1) := by
        have : (0 : Int) ≤ (M : Int) / 2 := Int.ediv_nonneg (by positivity) (by norm_num)
        omega
      rw [if_neg this]
      split <;> rfl
  · exact absurd hm (by simp)

/-- Membership in the interval returned by `to_interval` (non-trivial
case, positive coefficient `k`) yields membership of `k*x` in the
pre-normalization interval: `[lv, hv)` for a positive constraint, the
complement `[hv, lv)` for a negative one. -/
theorem to_interval_sound (M : Nat) (hM : 1 < M) (c : SignedC) (k : Nat)
    (hk0 : 0 < k) (hkM : k < M) (lv hv : Nat) (hlv : lv < M) (hhv : hv < M)
    (lo hi : Poly) (x : Nat) (hx : x < M)
    (hmem : memI M
      (mulM M (to_interval M c false (k : Int) lv lo hv hi).2.toNat x)
      (to_interval M c false (k : Int) lv lo hv hi).1 = true) :
    if c.pos then subM M (mulM M k x) lv < subM M hv lv
    else subM M (mulM M k x) hv < subM M lv hv := by
  have hM0 : 0 < M := by omega
  unfold to_interval at hmem
  rw [if_neg (by simp)] at hmem
  by_cases hhalf : (M : Int) / 2 < (k : Int)
  · rw [if_pos hhalf] at hmem
    unfold negTransform at hmem
    have htn : ((M : Int) - (k : Int)).toNat = M - k := by omega
    cases hpos : c.pos with
    | true =>
      rw [hpos] at hmem
      simp only [if_true, memI, htn, decide_eq_true_eq] at hmem
      rw [if_pos rfl]
      rw [mulM_neg_coeff M k x hM0 (by omega)] at hmem
      exact mem_neg_flip M (mulM M k x) lv hv hM (mulM_lt M hM0 _ _) hlv hhv hmem
    | false =>
      rw [hpos] at hmem
      simp only [Bool.false_eq_true, if_false, memI, htn,
        decide_eq_true_eq] at hmem
      rw [if_neg (by simp)]
      rw [mulM_neg_coeff M k x hM0 (by omega)] at hmem
      exact mem_neg_flip M (mulM M k x) hv lv hM (mulM_lt M hM0 _ _) hhv hlv hmem
  · rw [if_neg hhalf] at hmem
    have htn : ((k : Int)).toNat = k := by omega
    cases hpos : c.pos with
    | true =>
      rw [hpos] at hmem
      simp only [if_true, memI, htn, decide_eq_true_eq] at hmem
      rw [if_pos rfl]
      exact hmem
    | false =>
      rw [hpos] at hmem
      simp only [Bool.false_eq_true, if_false, memI, htn,
        decide_eq_true_eq] at hmem
      rw [if_neg (by simp)]
      exact hmem

/-- Inside-direction soundness of `match_zero`: a value inside the
returned interval falsifies the constraint. -/
theorem match_zero_sound (M : Nat) (hM : 1 < M) (ρ : Nat → Nat) (c : SignedC)
    (L R : Poly) (hc : c.cns = Constr.ule L R)
    (hgcd : ∀ a : Nat, a % 2 = 1 → Nat.gcd a M = 1)
    (x : Nat) (hx : x < M)
    (a1 : Nat) (b1 e1 : Poly) (a2 : Nat) (b2 e2 : Poly) (fi1 fi' : FiRecord)
    (hm : match_zero M c a1 b1 e1 a2 b2 e2 fi1 = some fi')
    (hL : evalP M ρ L = (a1 * x + pval b1) % M)
    (hR : evalP M ρ R = (a2 * x + pval b2) % M)
    (hmem : memI M (mulM M fi'.coeff.toNat x) fi'.interval = true) :
    ¬ cHolds M ρ c := by
  have hM0 : 0 < M := by omega
  unfold match_zero at hm
  split at hm
  case isFalse => exact absurd hm (by simp)
  case isTrue hcond =>
  obtain ⟨hodd, ha2, hb2z⟩ := hcond
  have hb2 : b2 = [] := by simpa [isZeroP] using hb2z
  have hg : Nat.gcd a1 M = 1 := hgcd a1 hodd
  have hR0 : evalP M ρ R = 0 := by
    rw [hR, ha2, hb2]
    simp [pval]
  have hn : mulM M (negM M (pval b1)) (invM M a1) < M := mulM_lt M hM0 _ _
  cases hpos : c.pos with
  | true =>
    rw [hpos] at hm
    simp only [if_true, Option.some.injEq] at hm
    subst hm
    simp only at hmem
    rw [show ((1 : Int)).toNat = 1 from rfl, mulM_one_left M x hM hx] at hmem
    simp only [memI, decide_eq_true_eq] at hmem
    have hne : x ≠ mulM M (negM M (pval b1)) (invM M a1) :=
      (memI_unit_compl_iff M _ x hM hn hx).mp hmem
    intro hch
    unfold cHolds at hch
    rw [hc, hpos] at hch
    simp only [cAtom, decide_eq_true_eq] at hch
    rw [hL, hR0, Nat.le_zero] at hch
    have := match_zero_unique M a1 (pval b1) x hM0 hg hch
    rw [Nat.mod_eq_of_lt hx] at this
    exact hne this
  | false =>
    rw [hpos] at hm
    simp only [Bool.false_eq_true, if_false, Option.some.injEq] at hm
    subst hm
    simp only at hmem
    rw [show ((1 : Int)).toNat = 1 from rfl, mulM_one_left M x hM hx] at hmem
    simp only [memI, decide_eq_true_eq] at hmem
    have hxn : x = mulM M (negM M (pval b1)) (invM M a1) :=
      (memI_unit_iff M _ x hM hn hx).mp hmem
    intro hch
    unfold cHolds at hch
    rw [hc, hpos] at hch
    simp only [cAtom] at hch
    have hroot := match_zero_root M a1 (pval b1) hM0 hg
    rw [← hxn] at hroot
    rw [hL, hroot, hR0] at hch
    simp at hch

/-- Inside-direction soundness of `match_max`. -/
theorem match_max_sound (M : Nat) (hM : 1 < M) (ρ : Nat → Nat) (c : SignedC)
    (L R : Poly) (hc : c.cns = Constr.ule L R)
    (hgcd : ∀ a : Nat, a % 2 = 1 → Nat.gcd a M = 1)
    (x : Nat) (hx : x < M)
    (a1 : Nat) (b1 e1 : Poly) (a2 : Nat) (b2 e2 : Poly) (fi1 fi' : FiRecord)
    (hm : match_max M c a1 b1 e1 a2 b2 e2 fi1 = some fi')
    (hL : evalP M ρ L = (a1 * x + pval b1) % M)
    (hR : evalP M ρ R = (a2 * x + pval b2) % M)
    (hmem : memI M (mulM M fi'.coeff.toNat x) fi'.interval = true) :
    ¬ cHolds M ρ c := by
  have hM0 : 0 < M := by omega
  unfold match_max at hm
  split at hm
  case isFalse => exact absurd hm (by simp)
  case isTrue hcond =>
  obtain ⟨ha1, hmax, hodd⟩ := hcond
  have hg : Nat.gcd a2 M = 1 := hgcd a2 hodd
  have hb1max : pval b1 = M - 1 := by
    simp only [isMaxP, Bool.and_eq_true, decide_eq_true_eq] at hmax
    exact hmax.2
  have hLmax : evalP M ρ L = M - 1 := by
    rw [hL, ha1, hb1max]
    rw [Nat.zero_mul, Nat.zero_add, Nat.mod_eq_of_lt (by omega)]
  have hroot : a2 * mulM M (subM M (M - 1) (pval b2)) (invM M a2) + pval b2 ≡
      M - 1 [MOD M] := by
    have h1 := (anchor_mul M a2 (subM M (M - 1) (pval b2)) hM0 hg).add_right
      (pval b2)
    exact h1.trans (subM_add_cancel M (M - 1) (pval b2) hM0)
  have hn : mulM M (subM M (M - 1) (pval b2)) (invM M a2) < M := mulM_lt M hM0 _ _
  cases hpos : c.pos with
  | true =>
    rw [hpos] at hm
    simp only [if_true, Option.some.injEq] at hm
    subst hm
    simp only at hmem
    rw [show ((1 : Int)).toNat = 1 from rfl, mulM_one_left M x hM hx] at hmem
    simp only [memI, decide_eq_true_eq] at hmem
    have hne : x ≠ mulM M (subM M (M - 1) (pval b2)) (invM M a2) :=
      (memI_unit_compl_iff M _ x hM hn hx).mp hmem
    intro hch
    unfold cHolds at hch
    rw [hc, hpos] at hch
    simp only [cAtom, decide_eq_true_eq] at hch
    rw [hLmax] at hch
    have hRlt : evalP M ρ R < M := evalP_lt M hM0 ρ R
    have hReq : evalP M ρ R = M - 1 := by omega
    rw [hR] at hReq
    have hcg : a2 * x + pval b2 ≡
        a2 * mulM M (subM M (M - 1) (pval b2)) (invM M a2) + pval b2 [MOD M] := by
      have h1 : a2 * x + pval b2 ≡ M - 1 [MOD M] := by
        unfold Nat.ModEq
        rw [hReq, Nat.mod_eq_of_lt (by omega)]
      exact h1.trans hroot.symm
    have hax : a2 * x ≡
        a2 * mulM M (subM M (M - 1) (pval b2)) (invM M a2) [MOD M] :=
      Nat.ModEq.add_right_cancel' _ hcg
    exact hne (invM_cancel M a2 x _ hM0 hg hax hx hn)
  | false =>
    rw [hpos] at hm
    simp only [Bool.false_eq_true, if_false, Option.some.injEq] at hm
    subst hm
    simp only at hmem
    rw [show ((1 : Int)).toNat = 1 from rfl, mulM_one_left M x hM hx] at hmem
    simp only [memI, decide_eq_true_eq] at hmem
    have hxn : x = mulM M (subM M (M - 1) (pval b2)) (invM M a2) :=
      (memI_unit_iff M _ x hM hn hx).mp hmem
    intro hch
    unfold cHolds at hch
    rw [hc, hpos] at hch
    simp only [cAtom] at hch
    have hReq : evalP M ρ R = M - 1 := by
      rw [← hxn] at hroot
      rw [hR]
      exact modeq_eq_of_lt M _ _ ((Nat.mod_modEq _ M).trans hroot)
        (Nat.mod_lt _ hM0) (by omega)
    rw [hLmax, hReq] at hch
    simp at hch

theorem addM_lt (M : Nat) (hM : 0 < M) (a b : Nat) : addM M a b < M := by
  unfold addM
  exact Nat.mod_lt _ hM

theorem subM_cases (M a b : Nat) (ha : a < M) (hb : b < M) :
    (b ≤ a ∧ subM M a b = a - b) ∨ (a < b ∧ subM M a b = a + M - b) := by
  rw [subM_eq M a b ha hb]
  split_ifs with h
  · exact Or.inl ⟨h, rfl⟩
  · exact Or.inr ⟨by omega, rfl⟩

theorem addM_cases (M a b : Nat) (ha : a < M) (hb : b < M) :
    (a + b < M ∧ addM M a b = a + b) ∨ (M ≤ a + b ∧ addM M a b = a + b - M) := by
  rw [addM_eq, add_mod_cases M a b ha hb]
  split_ifs with h
  · exact Or.inl ⟨h, rfl⟩
  · exact Or.inr ⟨by omega, rfl⟩

theorem mod_add_cases (M a b : Nat) (ha : a < M) (hb : b < M) :
    (a + b < M ∧ (a + b) % M = a + b) ∨
    (M ≤ a + b ∧ (a + b) % M = a + b - M) := by
  rw [add_mod_cases M a b ha hb]
  split_ifs with h
  · exact Or.inl ⟨h, rfl⟩
  · exact Or.inr ⟨by omega, rfl⟩

theorem negM_lt (M : Nat) (hM : 0 < M) (a : Nat) : negM M a < M :=
  subM_lt M hM 0 a

theorem negM_cases' (M a : Nat) (ha : a < M) :
    (a = 0 ∧ negM M a = 0) ∨ (0 < a ∧ negM M a = M - a) := by
  rw [negM_cases M a ha]
  split_ifs with h
  · exact Or.inl ⟨h, rfl⟩
  · exact Or.inr ⟨by omega, rfl⟩

theorem add_non_unit_coeff_interval (M : Nat) (fi : FiRecord)
    (b1 e1 b2 e2 : Poly) :
    (add_non_unit_side_conds M fi b1 e1 b2 e2).coeff = fi.coeff ∧
    (add_non_unit_side_conds M fi b1 e1 b2 e2).interval = fi.interval := by
  unfold add_non_unit_side_conds
  split <;> exact ⟨rfl, rfl⟩

/-- Arithmetic core of `match_linear1` (positive polarity):
`y = a1*x` inside `[B2 - B1 + 1, -B1)` makes `y + B1 > B2`. -/
theorem linear1_arith_pos (M y B1 B2 : Nat) (hM : 1 < M) (hy : y < M)
    (hB1 : B1 < M) (hB2 : B2 < M)
    (hmem : subM M y (addM M (subM M B2 B1) 1) <
      subM M (negM M B1) (addM M (subM M B2 B1) 1)) :
    ¬ ((y + B1) % M ≤ B2) := by
  have hM0 : 0 < M := by omega
  have hsub := subM_cases M B2 B1 hB2 hB1
  have hsubLt : subM M B2 B1 < M := subM_lt M hM0 _ _
  have haddm := addM_cases M (subM M B2 B1) 1 hsubLt hM
  have haddmLt : addM M (subM M B2 B1) 1 < M := addM_lt M hM0 _ _
  have hneg := negM_cases' M B1 hB1
  have hnegLt : negM M B1 < M := negM_lt M hM0 _
  have ht := mod_add_cases M y B1 hy hB1
  rw [subM_lt_subM_iff M y _ _ hy haddmLt hnegLt] at hmem
  omega

/-- Arithmetic core of `match_linear1` (negative polarity). -/
theorem linear1_arith_neg (M y B1 B2 : Nat) (hM : 1 < M) (hy : y < M)
    (hB1 : B1 < M) (hB2 : B2 < M)
    (hmem : subM M y (negM M B1) <
      subM M (addM M (subM M B2 B1) 1) (negM M B1)) :
    (y + B1) % M ≤ B2 := by
  have hM0 : 0 < M := by omega
  have hsub := subM_cases M B2 B1 hB2 hB1
  have hsubLt : subM M B2 B1 < M := subM_lt M hM0 _ _
  have haddm := addM_cases M (subM M B2 B1) 1 hsubLt hM
  have haddmLt : addM M (subM M B2 B1) 1 < M := addM_lt M hM0 _ _
  have hneg := negM_cases' M B1 hB1
  have hnegLt : negM M B1 < M := negM_lt M hM0 _
  have ht := mod_add_cases M y B1 hy hB1
  rw [subM_lt_subM_iff M y _ _ hy hnegLt haddmLt] at hmem
  omega

/-- Arithmetic core of `match_linear2` (positive polarity):
`y = a2*x` inside `[-B2, B1 - B2)` makes `y + B2 < B1`. -/
theorem linear2_arith_pos (M y B1 B2 : Nat) (hM : 1 < M) (hy : y < M)
    (hB1 : B1 < M) (hB2 : B2 < M)
    (hmem : subM M y (negM M B2) <
      subM M (subM M B1 B2) (negM M B2)) :
    ¬ (B1 ≤ (y + B2) % M) := by
  have hM0 : 0 < M := by omega
  have hsub := subM_cases M B1 B2 hB1 hB2
  have hsubLt : subM M B1 B2 < M := subM_lt M hM0 _ _
  have hneg := negM_cases' M B2 hB2
  have hnegLt : negM M B2 < M := negM_lt M hM0 _
  have ht := mod_add_cases M y B2 hy hB2
  rw [subM_lt_subM_iff M y _ _ hy hnegLt hsubLt] at hmem
  omega

/-- Arithmetic core of `match_linear2` (negative polarity). -/
theorem linear2_arith_neg (M y B1 B2 : Nat) (hM : 1 < M) (hy : y < M)
    (hB1 : B1 < M) (hB2 : B2 < M)
    (hmem : subM M y (subM M B1 B2) <
      subM M (negM M B2) (subM M B1 B2)) :
    B1 ≤ (y + B2) % M := by
  have hM0 : 0 < M := by omega
  have hsub := subM_cases M B1 B2 hB1 hB2
  have hsubLt : subM M B1 B2 < M := subM_lt M hM0 _ _
  have hneg := negM_cases' M B2 hB2
  have hnegLt : negM M B2 < M := negM_lt M hM0 _
  have ht := mod_add_cases M y B2 hy hB2
  rw [subM_lt_subM_iff M y _ _ hy hsubLt hnegLt] at hmem
  omega

/-- Arithmetic core of `match_linear3` (positive polarity):
`y = a*x` inside `[-B2, -B1)` makes `y + B1 > y + B2` (wrapped). -/
theorem linear3_arith_pos (M y B1 B2 : Nat) (hM : 1 < M) (hy : y < M)
    (hB1 : B1 < M) (hB2 : B2 < M)
    (hmem : subM M y (negM M B2) < subM M (negM M B1) (negM M B2)) :
    ¬ ((y + B1) % M ≤ (y + B2) % M) := by
  have hM0 : 0 < M := by omega
  have hneg1 := negM_cases' M B1 hB1
  have hneg1Lt : negM M B1 < M := negM_lt M hM0 _
  have hneg2 := negM_cases' M B2 hB2
  have hneg2Lt : negM M B2 < M := negM_lt M hM0 _
  have ht1 := mod_add_cases M y B1 hy hB1
  have ht2 := mod_add_cases M y B2 hy hB2
  rw [subM_lt_subM_iff M y _ _ hy hneg2Lt hneg1Lt] at hmem
  omega

/-- Arithmetic core of `match_linear3` (negative polarity). -/
theorem linear3_arith_neg (M y B1 B2 : Nat) (hM : 1 < M) (hy : y < M)
    (hB1 : B1 < M) (hB2 : B2 < M)
    (hmem : subM M y (negM M B1) < subM M (negM M B2) (negM M B1)) :
    (y + B1) % M ≤ (y + B2) % M := by
  have hM0 : 0 < M := by omega
  have hneg1 := negM_cases' M B1 hB1
  have hneg1Lt : negM M B1 < M := negM_lt M hM0 _
  have hneg2 := negM_cases' M B2 hB2
  have hneg2Lt : negM M B2 < M := negM_lt M hM0 _
  have ht1 := mod_add_cases M y B1 hy hB1
  have ht2 := mod_add_cases M y B2 hy hB2
  rw [subM_lt_subM_iff M y _ _ hy hneg1Lt hneg2Lt] at hmem
  omega

/-- Inside-direction soundness of `match_linear1`. -/
theorem match_linear1_sound (M : Nat) (hM : 1 < M) (ρ : Nat → Nat)
    (c : SignedC) (L R : Poly) (hc : c.cns = Constr.ule L R)
    (x : Nat) (hx : x < M)
    (a1 : Nat) (b1 e1 : Poly) (a2 : Nat) (b2 e2 : Poly) (fi1 fi' : FiRecord)
    (hm : match_linear1 M c a1 b1 e1 a2 b2 e2 fi1 = some fi')
    (hL : evalP M ρ L = (a1 * x + pval b1) % M)
    (hR : evalP M ρ R = (a2 * x + pval b2) % M)
    (ha1M : a1 < M) (hB1 : pval b1 < M) (hB2 : pval b2 < M)
    (hvb2 : isVal b2 = true) (hwfb2 : wfP M b2)
    (hmem : memI M (mulM M fi'.coeff.toNat x) fi'.interval = true) :
    ¬ cHolds M ρ c := by
  have hM0 : 0 < M := by omega
  unfold match_linear1 at hm
  split at hm
  case isFalse => exact absurd hm (by simp)
  case isTrue hcond =>
  obtain ⟨ha2, ha1ne⟩ := hcond
  simp only [Option.some.injEq] at hm
  subst hm
  obtain ⟨hco, hiv⟩ := add_non_unit_coeff_interval M _ b1 e1 b2 e2
  rw [hco, hiv] at hmem
  simp only at hmem
  have hR0 : evalP M ρ R = pval b2 := by
    rw [hR, ha2, Nat.zero_mul, Nat.zero_add, Nat.mod_eq_of_lt hB2]
  cases htriv : isZeroP (addP M b2 (constP M 1)) with
  | true =>
    rw [htriv] at hmem
    rw [show to_interval M c true ((a1 : Nat) : Int)
        (addM M (subM M (pval b2) (pval b1)) 1)
        (addP M (subP M e2 e1) (constP M 1)) (negM M (pval b1)) (negP M e1) =
        (if c.pos then .empty else .full, ((a1 : Nat) : Int)) from rfl] at hmem
    cases hpos : c.pos with
    | true =>
      rw [hpos] at hmem
      simp [memI] at hmem
    | false =>
      have hb2max : pval b2 = M - 1 :=
        isZero_addP_one M hM b2 hvb2 hwfb2 htriv
      intro hch
      unfold cHolds at hch
      rw [hc, hpos] at hch
      simp only [cAtom, decide_eq_false_iff_not] at hch
      have hLlt : evalP M ρ L < M := evalP_lt M hM0 ρ L
      exact hch (by rw [hR0, hb2max]; omega)
  | false =>
    rw [htriv] at hmem
    have hts := to_interval_sound M hM c a1 (Nat.pos_of_ne_zero ha1ne) ha1M
      (addM M (subM M (pval b2) (pval b1)) 1) (negM M (pval b1))
      (addM_lt M hM0 _ _) (negM_lt M hM0 _)
      (addP M (subP M e2 e1) (constP M 1)) (negP M e1) x hx hmem
    have hy : mulM M a1 x < M := mulM_lt M hM0 _ _
    have hLy : evalP M ρ L = (mulM M a1 x + pval b1) % M := by
      rw [hL]
      exact (mulM_modeq M a1 x).symm.add_right (pval b1)
    cases hpos : c.pos with
    | true =>
      rw [hpos] at hts
      simp only [if_true] at hts
      have := linear1_arith_pos M (mulM M a1 x) (pval b1) (pval b2) hM hy hB1
        hB2 hts
      intro hch
      unfold cHolds at hch
      rw [hc, hpos] at hch
      simp only [cAtom, decide_eq_true_eq] at hch
      rw [hLy, hR0] at hch
      exact this hch
    | false =>
      rw [hpos] at hts
      simp only [Bool.false_eq_true, if_false] at hts
      have := linear1_arith_neg M (mulM M a1 x) (pval b1) (pval b2) hM hy hB1
        hB2 hts
      intro hch
      unfold cHolds at hch
      rw [hc, hpos] at hch
      simp only [cAtom, decide_eq_false_iff_not] at hch
      rw [hLy, hR0] at hch
      exact hch this

/-- Inside-direction soundness of `match_linear2`. -/
theorem match_linear2_sound (M : Nat) (hM : 1 < M) (ρ : Nat → Nat)
    (c : SignedC) (L R : Poly) (hc : c.cns = Constr.ule L R)
    (x : Nat) (hx : x < M)
    (a1 : Nat) (b1 e1 : Poly) (a2 : Nat) (b2 e2 : Poly) (fi1 fi' : FiRecord)
    (hm : match_linear2 M c a1 b1 e1 a2 b2 e2 fi1 = some fi')
    (hL : evalP M ρ L = (a1 * x + pval b1) % M)
    (hR : evalP M ρ R = (a2 * x + pval b2) % M)
    (ha2M : a2 < M) (hB1 : pval b1 < M) (hB2 : pval b2 < M)
    (hmem : memI M (mulM M fi'.coeff.toNat x) fi'.interval = true) :
    ¬ cHolds M ρ c := by
  have hM0 : 0 < M := by omega
  unfold match_linear2 at hm
  split at hm
  case isFalse => exact absurd hm (by simp)
  case isTrue hcond =>
  obtain ⟨ha1, ha2ne⟩ := hcond
  simp only [Option.some.injEq] at hm
  subst hm
  obtain ⟨hco, hiv⟩ := add_non_unit_coeff_interval M _ b1 e1 b2 e2
  rw [hco, hiv] at hmem
  simp only at hmem
  have hL0 : evalP M ρ L = pval b1 := by
    rw [hL, ha1, Nat.zero_mul, Nat.zero_add, Nat.mod_eq_of_lt hB1]
  cases htriv : isZeroP b1 with
  | true =>
    rw [htriv] at hmem
    rw [show to_interval M c true ((a2 : Nat) : Int) (negM M (pval b2))
        (negP M e2) (subM M (pval b1) (pval b2)) (subP M e1 e2) =
        (if c.pos then .empty else .full, ((a2 : Nat) : Int)) from rfl] at hmem
    cases hpos : c.pos with
    | true =>
      rw [hpos] at hmem
      simp [memI] at hmem
    | false =>
      have hb1z : pval b1 = 0 := by
        have : b1 = [] := by simpa [isZeroP] using htriv
        rw [this]
        rfl
      intro hch
      unfold cHolds at hch
      rw [hc, hpos] at hch
      simp only [cAtom, decide_eq_false_iff_not] at hch
      exact hch (by rw [hL0, hb1z]; omega)
  | false =>
    rw [htriv] at hmem
    have hts := to_interval_sound M hM c a2 (Nat.pos_of_ne_zero ha2ne) ha2M
      (negM M (pval b2)) (subM M (pval b1) (pval b2))
      (negM_lt M hM0 _) (subM_lt M hM0 _ _)
      (negP M e2) (subP M e1 e2) x hx hmem
    have hy : mulM M a2 x < M := mulM_lt M hM0 _ _
    have hRy : evalP M ρ R = (mulM M a2 x + pval b2) % M := by
      rw [hR]
      exact (mulM_modeq M a2 x).symm.add_right (pval b2)
    cases hpos : c.pos with
    | true =>
      rw [hpos] at hts
      simp only [if_true] at hts
      have := linear2_arith_pos M (mulM M a2 x) (pval b1) (pval b2) hM hy hB1
        hB2 hts
      intro hch
      unfold cHolds at hch
      rw [hc, hpos] at hch
      simp only [cAtom, decide_eq_true_eq] at hch
      rw [hL0, hRy] at hch
      exact this hch
    | false =>
      rw [hpos] at hts
      simp only [Bool.false_eq_true, if_false] at hts
      have := linear2_arith_neg M (mulM M a2 x) (pval b1) (pval b2) hM hy hB1
        hB2 hts
      intro hch
      unfold cHolds at hch
      rw [hc, hpos] at hch
      simp only [cAtom, decide_eq_false_iff_not] at hch
      rw [hL0, hRy] at hch
      exact hch this

/-- Inside-direction soundness of `match_linear3`. -/
theorem match_linear3_sound (M : Nat) (hM : 1 < M) (ρ : Nat → Nat)
    (c : SignedC) (L R : Poly) (hc : c.cns = Constr.ule L R)
    (x : Nat) (hx : x < M)
    (a1 : Nat) (b1 e1 : Poly) (a2 : Nat) (b2 e2 : Poly) (fi1 fi' : FiRecord)
    (hm : match_linear3 M c a1 b1 e1 a2 b2 e2 fi1 = some fi')
    (hL : evalP M ρ L = (a1 * x + pval b1) % M)
    (hR : evalP M ρ R = (a2 * x + pval b2) % M)
    (ha1M : a1 < M) (hB1 : pval b1 < M) (hB2 : pval b2 < M)
    (hmem : memI M (mulM M fi'.coeff.toNat x) fi'.interval = true) :
    ¬ cHolds M ρ c := by
  have hM0 : 0 < M := by omega
  unfold match_linear3 at hm
  split at hm
  case isFalse => exact absurd hm (by simp)
  case isTrue hcond =>
  obtain ⟨ha12, ha1ne⟩ := hcond
  simp only [Option.some.injEq] at hm
  subst hm
  obtain ⟨hco, hiv⟩ := add_non_unit_coeff_interval M _ b1 e1 b2 e2
  rw [hco, hiv] at hmem
  simp only at hmem
  have hy : mulM M a1 x < M := mulM_lt M hM0 _ _
  have hLy : evalP M ρ L = (mulM M a1 x + pval b1) % M := by
    rw [hL]
    exact (mulM_modeq M a1 x).symm.add_right (pval b1)
  have hRy : evalP M ρ R = (mulM M a1 x + pval b2) % M := by
    rw [hR, ← ha12]
    exact (mulM_modeq M a1 x).symm.add_right (pval b2)
  cases htriv : decide (pval b1 = pval b2) with
  | true =>
    rw [htriv] at hmem
    rw [show to_interval M c true ((a1 : Nat) : Int) (negM M (pval b2))
        (negP M e2) (negM M (pval b1)) (negP M e1) =
        (if c.pos then .empty else .full, ((a1 : Nat) : Int)) from rfl] at hmem
    cases hpos : c.pos with
    | true =>
      rw [hpos] at hmem
      simp [memI] at hmem
    | false =>
      have hb12 : pval b1 = pval b2 := of_decide_eq_true htriv
      intro hch
      unfold cHolds at hch
      rw [hc, hpos] at hch
      simp only [cAtom, decide_eq_false_iff_not] at hch
      exact hch (by rw [hLy, hRy, hb12])
  | false =>
    rw [htriv] at hmem
    have hts := to_interval_sound M hM c a1 (Nat.pos_of_ne_zero ha1ne) ha1M
      (negM M (pval b2)) (negM M (pval b1))
      (negM_lt M hM0 _) (negM_lt M hM0 _)
      (negP M e2) (negP M e1) x hx hmem
    cases hpos : c.pos with
    | true =>
      rw [hpos] at hts
      simp only [if_true] at hts
      have := linear3_arith_pos M (mulM M a1 x) (pval b1) (pval b2) hM hy hB1
        hB2 hts
      intro hch
      unfold cHolds at hch
      rw [hc, hpos] at hch
      simp only [cAtom, decide_eq_true_eq] at hch
      rw [hLy, hRy] at hch
      exact this hch
    | false =>
      rw [hpos] at hts
      simp only [Bool.false_eq_true, if_false] at hts
      have := linear3_arith_neg M (mulM M a1 x) (pval b1) (pval b2) hM hy hB1
        hB2 hts
      intro hch
      unfold cHolds at hch
      rw [hc, hpos] at hch
      simp only [cAtom, decide_eq_false_iff_not] at hch
      rw [hLy, hRy] at hch
      exact hch this

/-- Inside-direction soundness of the post-swap overflow body
(`umul_ovfl_core2`): `PP`/`QQ` name the operands in the body's current
orientation, `P`/`Q` those of the original constraint. -/
theorem umul_core2_sound (M : Nat) (hM : 1 < M) (ρ : Nat → Nat) (c : SignedC)
    (P Q PP QQ : Poly) (hc : c.cns = Constr.umulOvfl P Q)
    (x : Nat) (hx : x < M)
    (fi1 fi' : FiRecord) (entry : Nat)
    (a1 : Nat) (e1 b1 : Poly) (a2 : Nat) (e2 b2 : Poly)
    (h : umul_ovfl_core2 M c fi1 entry a1 e1 b1 a2 e2 b2 = (true, fi'))
    (hco1 : fi1.coeff = 1)
    (hfst : evalP M ρ PP = (a1 * x + pval b1) % M)
    (hsnd : evalP M ρ QQ = (a2 * x + pval b2) % M)
    (he2v : evalP M ρ e2 = pval b2 % M)
    (hB2M : pval b2 < M)
    (hprod : evalP M ρ P * evalP M ρ Q = evalP M ρ PP * evalP M ρ QQ)
    (hside : ∀ sc ∈ fi'.sideCond, cHolds M ρ sc)
    (hmem : memI M (mulM M fi'.coeff.toNat x) fi'.interval = true) :
    ¬ cHolds M ρ c := by
  have hM0 : 0 < M := by omega
  simp only [umul_ovfl_core2] at h
  split at h
  case isTrue => exact absurd h (by simp)
  case isFalse hg1 =>
  split at h
  case isTrue => exact absurd h (by simp)
  case isFalse hg2 =>
  have hg1' : a1 = 1 ∧ a2 = 0 := by simpa using hg1
  obtain ⟨ha1, ha2⟩ := hg1'
  have hb1 : b1 = [] := by simpa [isZeroP] using hg2
  have hfx : evalP M ρ PP = x := by
    rw [hfst, ha1, hb1]
    show (1 * x + 0) % M = x
    rw [Nat.one_mul, Nat.add_zero]
    exact Nat.mod_eq_of_lt hx
  have hsx : evalP M ρ QQ = pval b2 := by
    rw [hsnd, ha2, Nat.zero_mul, Nat.zero_add]
    exact Nat.mod_eq_of_lt hB2M
  split at h
  case isTrue hpos =>
    split at h
    case isTrue hble =>
      injection h with h1 h2
      subst h2
      intro hch
      unfold cHolds at hch
      rw [hc, hpos] at hch
      simp only [cAtom, decide_eq_true_eq] at hch
      rw [hprod, hfx, hsx] at hch
      have hb : x * pval b2 ≤ x * 1 := Nat.mul_le_mul_left x hble
      omega
    case isFalse hble =>
      split at h
      case isTrue => exact absurd h (by simp)
      case isFalse =>
      injection h with h1 h2
      subst h2
      simp only at hmem
      rw [hco1] at hmem
      rw [show ((1 : Int)).toNat = 1 from rfl, mulM_one_left M x hM hx] at hmem
      simp only [memI, decide_eq_true_eq] at hmem
      have hq2 : 2 ≤ pval b2 := by omega
      have hA0 : 1 ≤ (M - 1) / pval b2 :=
        (Nat.one_le_div_iff (by omega)).mpr (by omega)
      have hAq : (M - 1) / pval b2 * pval b2 ≤ M - 1 := Nat.div_mul_le_self _ _
      have h2A : ((M - 1) / pval b2) * 2 ≤ ((M - 1) / pval b2) * pval b2 :=
        Nat.mul_le_mul_left _ hq2
      have hA1M : (M - 1) / pval b2 + 1 < M := by omega
      have hsubx : subM M x 0 = x := by
        rw [subM_eq M x 0 hx hM0]
        simp
      have hsubA : subM M ((M - 1) / pval b2 + 1) 0 = (M - 1) / pval b2 + 1 := by
        rw [subM_eq M _ 0 hA1M hM0]
        simp
      rw [hsubx, hsubA] at hmem
      have hxA : x ≤ (M - 1) / pval b2 := by omega
      have hsc := hside (uleC e2
        (constP M ((M - 1 + (M - 1) / pval b2) / ((M - 1) / pval b2) - 1)))
        (by simp)
      have hBeq : (M - 1 + (M - 1) / pval b2) / ((M - 1) / pval b2) - 1 =
          (M - 1) / ((M - 1) / pval b2) := by
        rw [Nat.add_div_right _ (by omega)]
        exact Nat.add_sub_cancel _ _
      have hBM : (M - 1) / ((M - 1) / pval b2) ≤ M - 1 := Nat.div_le_self _ _
      have hscv : evalP M ρ e2 ≤
          ((M - 1 + (M - 1) / pval b2) / ((M - 1) / pval b2) - 1) % M := by
        unfold cHolds at hsc
        simp only [uleC, cAtom, decide_eq_true_eq] at hsc
        rwa [evalP_constP] at hsc
      have hB2B : pval b2 ≤ (M - 1) / ((M - 1) / pval b2) := by
        rw [hBeq] at hscv
        rw [he2v, Nat.mod_eq_of_lt hB2M] at hscv
        rwa [Nat.mod_eq_of_lt (by omega)] at hscv
      have hAB : ((M - 1) / pval b2) * ((M - 1) / ((M - 1) / pval b2)) ≤
          M - 1 := by
        rw [Nat.mul_comm]
        exact Nat.div_mul_le_self _ _
      have hxq : x * pval b2 ≤
          ((M - 1) / pval b2) * ((M - 1) / ((M - 1) / pval b2)) :=
        Nat.mul_le_mul hxA hB2B
      intro hch
      unfold cHolds at hch
      rw [hc, hpos] at hch
      simp only [cAtom, decide_eq_true_eq] at hch
      rw [hprod, hfx, hsx] at hch
      omega
  case isFalse hpos =>
    split at h
    case isTrue => exact absurd h (by simp)
    case isFalse hble =>
    split at h
    case isTrue => exact absurd h (by simp)
    case isFalse =>
    injection h with h1 h2
    subst h2
    simp only at hmem
    rw [hco1] at hmem
    rw [show ((1 : Int)).toNat = 1 from rfl, mulM_one_left M x hM hx] at hmem
    simp only [memI, decide_eq_true_eq] at hmem
    have hq2 : 2 ≤ pval b2 := by omega
    have hAq : (M - 1) / pval b2 * pval b2 ≤ M - 1 := Nat.div_mul_le_self _ _
    have h2A : ((M - 1) / pval b2) * 2 ≤ ((M - 1) / pval b2) * pval b2 :=
      Nat.mul_le_mul_left _ hq2
    have hAM : (M - 1) / pval b2 + 1 < M := by omega
    have hcx := subM_cases M x ((M - 1) / pval b2 + 1) hx hAM
    have hc0 := subM_cases M 0 ((M - 1) / pval b2 + 1) hM0 hAM
    have hAx : (M - 1) / pval b2 + 1 ≤ x := by omega
    have hdm := Nat.div_add_mod (M - 1) (pval b2)
    have hr := Nat.mod_lt (M - 1) (show 0 < pval b2 by omega)
    have hxq : ((M - 1) / pval b2 + 1) * pval b2 ≤ x * pval b2 :=
      Nat.mul_le_mul_right _ hAx
    have hexp : ((M - 1) / pval b2 + 1) * pval b2 =
        pval b2 * ((M - 1) / pval b2) + pval b2 := by ring
    intro hch
    unfold cHolds at hch
    rw [hc] at hch
    have hposf : c.pos = false := by simpa using hpos
    rw [hposf] at hch
    simp only [cAtom] at hch
    have hna : ¬ (M ≤ evalP M ρ P * evalP M ρ Q) := by simpa using hch
    apply hna
    rw [hprod, hfx, hsx]
    omega

/-- Inside-direction soundness of `umul_ovfl_core1` (the pre-swap overflow
dispatcher, including the one-sided `[0, 2)` branch). -/
theorem umul_core1_sound (M : Nat) (hM : 1 < M) (ρ : Nat → Nat) (c : SignedC)
    (P Q PP QQ : Poly) (hc : c.cns = Constr.umulOvfl P Q)
    (x : Nat) (hx : x < M)
    (fi1 fi' : FiRecord) (entry : Nat)
    (ok1 : Bool) (a1 : Nat) (e1 b1 : Poly)
    (ok2 : Bool) (a2 : Nat) (e2 b2 : Poly)
    (h : umul_ovfl_core1 M c fi1 entry ok1 a1 e1 b1 ok2 a2 e2 b2 = (true, fi'))
    (hco1 : fi1.coeff = 1)
    (hfst : ok1 = true → evalP M ρ PP = (a1 * x + pval b1) % M ∧
      evalP M ρ e1 = pval b1 % M ∧ pval b1 < M)
    (hsnd : ok2 = true → evalP M ρ QQ = (a2 * x + pval b2) % M ∧
      evalP M ρ e2 = pval b2 % M ∧ pval b2 < M)
    (hprod : evalP M ρ P * evalP M ρ Q = evalP M ρ PP * evalP M ρ QQ)
    (hside : ∀ sc ∈ fi'.sideCond, cHolds M ρ sc)
    (hmem : memI M (mulM M fi'.coeff.toNat x) fi'.interval = true) :
    ¬ cHolds M ρ c := by
  have hM0 : 0 < M := by omega
  unfold umul_ovfl_core1 at h
  split at h
  case isTrue hg =>
    injection h with h1 h2
    subst h2
    simp only [Bool.and_eq_true, beq_iff_eq, Bool.not_eq_true'] at hg
    obtain ⟨⟨⟨⟨hok1, hok2⟩, ha1⟩, hb1z⟩, hposc⟩ := hg
    have hb1 : b1 = [] := by simpa [isZeroP] using hb1z
    obtain ⟨hPPv, -, -⟩ := hfst hok1
    have hPPx : evalP M ρ PP = x := by
      rw [hPPv, ha1, hb1]
      show (1 * x + 0) % M = x
      rw [Nat.one_mul, Nat.add_zero]
      exact Nat.mod_eq_of_lt hx
    simp only at hmem
    rw [hco1] at hmem
    rw [show ((1 : Int)).toNat = 1 from rfl, mulM_one_left M x hM hx] at hmem
    simp only [memI, decide_eq_true_eq] at hmem
    have hsx : subM M x 0 = x := by
      rw [subM_eq M x 0 hx hM0]
      simp
    have hs2 : subM M 2 0 = 2 % M := by
      unfold subM
      rw [Nat.zero_mod, Nat.sub_zero, Nat.add_mod_right]
      exact Nat.mod_mod_of_dvd _ (dvd_refl M)
    rw [hsx, hs2] at hmem
    by_cases hM2 : M = 2
    · subst hM2
      simp at hmem
    · have h2M : 2 % M = 2 := Nat.mod_eq_of_lt (by omega)
      rw [h2M] at hmem
      intro hch
      unfold cHolds at hch
      rw [hc, hposc] at hch
      simp only [cAtom, decide_eq_true_eq] at hch
      rw [hprod, hPPx] at hch
      have hQlt := evalP_lt M hM0 ρ QQ
      have hb : x * evalP M ρ QQ ≤ 1 * evalP M ρ QQ :=
        Nat.mul_le_mul_right _ (by omega)
      omega
  case isFalse hg =>
  split at h
  case isTrue => exact absurd h (by simp)
  case isFalse hg2 =>
  have hok : ok1 = true ∧ ok2 = true := by
    rcases ok1 <;> rcases ok2 <;> simp_all
  obtain ⟨hok1, hok2⟩ := hok
  obtain ⟨hPPv, hPe, hPb⟩ := hfst hok1
  obtain ⟨hQQv, hQe, hQb⟩ := hsnd hok2
  split at h
  case isTrue hsw =>
    exact umul_core2_sound M hM ρ c P Q QQ PP hc x hx fi1 fi' entry
      a2 e2 b2 a1 e1 b1 h hco1 hQQv hPPv hPe hPb
      (hprod.trans (Nat.mul_comm _ _)) hside hmem
  case isFalse hsw =>
    exact umul_core2_sound M hM ρ c P Q PP QQ hc x hx fi1 fi' entry
      a1 e1 b1 a2 e2 b2 h hco1 hPPv hQQv hQe hQb hprod hside hmem

/-- `match_zero` only appends to the side-condition list. -/
theorem match_zero_sideCond_mem (M : Nat) (c : SignedC) (a1 : Nat)
    (b1 e1 : Poly) (a2 : Nat) (b2 e2 : Poly) (fi1 fi' : FiRecord)
    (hm : match_zero M c a1 b1 e1 a2 b2 e2 fi1 = some fi') :
    ∀ s ∈ fi1.sideCond, s ∈ fi'.sideCond := by
  unfold match_zero at hm
  repeat' split at hm
  all_goals simp at hm
  all_goals subst hm
  all_goals intro s hs
  all_goals ((repeat' split) <;> simp [hs])

/-- `match_max` only appends to the side-condition list. -/
theorem match_max_sideCond_mem (M : Nat) (c : SignedC) (a1 : Nat)
    (b1 e1 : Poly) (a2 : Nat) (b2 e2 : Poly) (fi1 fi' : FiRecord)
    (hm : match_max M c a1 b1 e1 a2 b2 e2 fi1 = some fi') :
    ∀ s ∈ fi1.sideCond, s ∈ fi'.sideCond := by
  unfold match_max at hm
  repeat' split at hm
  all_goals simp at hm
  all_goals subst hm
  all_goals intro s hs
  all_goals ((repeat' split) <;> simp [hs])

/-- `match_linear1` only appends to the side-condition list. -/
theorem match_linear1_sideCond_mem (M : Nat) (c : SignedC) (a1 : Nat)
    (b1 e1 : Poly) (a2 : Nat) (b2 e2 : Poly) (fi1 fi' : FiRecord)
    (hm : match_linear1 M c a1 b1 e1 a2 b2 e2 fi1 = some fi') :
    ∀ s ∈ fi1.sideCond, s ∈ fi'.sideCond := by
  unfold match_linear1 add_non_unit_side_conds at hm
  repeat' split at hm
  all_goals simp at hm
  all_goals subst hm
  all_goals intro s hs
  all_goals ((repeat' split) <;> simp [hs])

/-- `match_linear2` only appends to the side-condition list. -/
theorem match_linear2_sideCond_mem (M : Nat) (c : SignedC) (a1 : Nat)
    (b1 e1 : Poly) (a2 : Nat) (b2 e2 : Poly) (fi1 fi' : FiRecord)
    (hm : match_linear2 M c a1 b1 e1 a2 b2 e2 fi1 = some fi') :
    ∀ s ∈ fi1.sideCond, s ∈ fi'.sideCond := by
  unfold match_linear2 add_non_unit_side_conds at hm
  repeat' split at hm
  all_goals simp at hm
  all_goals subst hm
  all_goals intro s hs
  all_goals ((repeat' split) <;> simp [hs])

/-- `match_linear3` only appends to the side-condition list. -/
theorem match_linear3_sideCond_mem (M : Nat) (c : SignedC) (a1 : Nat)
    (b1 e1 : Poly) (a2 : Nat) (b2 e2 : Poly) (fi1 fi' : FiRecord)
    (hm : match_linear3 M c a1 b1 e1 a2 b2 e2 fi1 = some fi') :
    ∀ s ∈ fi1.sideCond, s ∈ fi'.sideCond := by
  unfold match_linear3 add_non_unit_side_conds at hm
  repeat' split at hm
  all_goals simp at hm
  all_goals subst hm
  all_goals intro s hs
  all_goals ((repeat' split) <;> simp [hs])

/-- `umul_ovfl_core2` (on success) only appends to the side-condition
list. -/
theorem umul_core2_sideCond_mem (M : Nat) (c : SignedC) (fi1 fi' : FiRecord)
    (entry : Nat) (a1 : Nat) (e1 b1 : Poly) (a2 : Nat) (e2 b2 : Poly)
    (h : umul_ovfl_core2 M c fi1 entry a1 e1 b1 a2 e2 b2 = (true, fi')) :
    ∀ s ∈ fi1.sideCond, s ∈ fi'.sideCond := by
  simp only [umul_ovfl_core2] at h
  repeat' split at h
  all_goals simp at h
  all_goals subst h
  all_goals intro s hs
  all_goals simp [hs]

/-- `umul_ovfl_core1` (on success) only appends to the side-condition
list. -/
theorem umul_core1_sideCond_mem (M : Nat) (c : SignedC) (fi1 fi' : FiRecord)
    (entry : Nat) (ok1 : Bool) (a1 : Nat) (e1 b1 : Poly)
    (ok2 : Bool) (a2 : Nat) (e2 b2 : Poly)
    (h : umul_ovfl_core1 M c fi1 entry ok1 a1 e1 b1 ok2 a2 e2 b2 = (true, fi')) :
    ∀ s ∈ fi1.sideCond, s ∈ fi'.sideCond := by
  unfold umul_ovfl_core1 at h
  split at h
  · injection h with h1 h2
    subst h2
    intro s hs
    exact hs
  · split at h
    · exact absurd h (by simp)
    · split at h
      · exact umul_core2_sideCond_mem M c fi1 fi' entry a2 e2 b2 a1 e1 b1 h
      · exact umul_core2_sideCond_mem M c fi1 fi' entry a1 e1 b1 a2 e2 b2 h

/-- Well-formedness of a constraint's polynomials (canonical pdd
coefficients, reduced mod `M`). -/
def cnsWf (M : Nat) : Constr → Prop
  | .ule l r => wfP M l ∧ wfP M r
  | .umulOvfl p q => wfP M p ∧ wfP M q

instance decWfP (M : Nat) (p : Poly) : Decidable (wfP M p) := by
  unfold wfP
  infer_instance

instance decCnsWf (M : Nat) (k : Constr) : Decidable (cnsWf M k) := by
  cases k <;> (unfold cnsWf; infer_instance)

/-- Claim C1 (amended): inside-direction soundness of the matcher.  For
every supported constraint over canonical polynomials for which
`get_interval` succeeds with a genuine interval record (`coeff ≠ -1`,
excluding the `diseq_lin` sentinel of `match_linear4`), and every model
`ρ` agreeing with the partial assignment under which all emitted side
conditions hold: if `coeff * v mod 2^w` lies INSIDE the returned
forbidden interval then the original signed constraint evaluates to
false under `ρ`.  (The stated outside-direction is refuted by the
counterexample: intervals with `coeff ≠ 1` constrain `coeff * v`, not
`v`, and the one-sided overflow intervals under-approximate.) -/
theorem C1_matcher_soundness (w : Nat) (hw : 0 < w) (σ : Nat → Option Nat)
    (ρ : Nat → Nat) (hagree : agrees σ ρ) (c : SignedC) (v : Nat)
    (hx : ρ v < 2 ^ w) (fi fi' : FiRecord)
    (hwf : cnsWf (2 ^ w) c.cns)
    (h : get_interval (2 ^ w) w σ c v fi = (true, fi'))
    (hside : ∀ sc ∈ fi'.sideCond, cHolds (2 ^ w) ρ sc)
    (hcoeff : fi'.coeff ≠ -1)
    (hmem : memI (2 ^ w) (mulM (2 ^ w) fi'.coeff.toNat (ρ v)) fi'.interval
      = true) :
    ¬ cHolds (2 ^ w) ρ c := by
  have hM : 1 < 2 ^ w := Nat.one_lt_two_pow_iff.mpr (by omega)
  have hM0 : 0 < 2 ^ w := by omega
  have hgcd : ∀ a : Nat, a % 2 = 1 → Nat.gcd a (2 ^ w) = 1 :=
    fun a ha => odd_gcd_pow2 w a ha
  rcases hcns : c.cns with ⟨L, R⟩ | ⟨P, Q⟩
  · -- ULE path
    rw [hcns] at hwf
    obtain ⟨hwfL, hwfR⟩ := hwf
    rcases h1 : linear_decompose (2 ^ w) σ v L with ⟨ok1, a1, e1, b1, d1⟩
    rcases h2 : linear_decompose (2 ^ w) σ v R with ⟨ok2, a2, e2, b2, d2⟩
    simp only [get_interval, hcns] at h
    rw [get_interval_ule_chain (2 ^ w) σ c L R v { fi with bitWidth := w }
      ok1 a1 e1 b1 d1 ok2 a2 e2 b2 d2 h1 h2] at h
    split at h
    case isTrue => exact absurd h (by simp)
    case isFalse hok =>
    push_neg at hok
    obtain ⟨hok1', hok2', hzz⟩ := hok
    have hok1 : ok1 = true := by
      cases ok1
      · exact absurd rfl hok1'
      · rfl
    have hok2 : ok2 = true := by
      cases ok2
      · exact absurd rfl hok2'
      · rfl
    rw [hok1] at h1
    rw [hok2] at h2
    split at h
    case h_2 => exact absurd h (by simp)
    case h_1 fi2 heq =>
    injection h with hh1 hh2
    subst hh2
    simp only [ule_patterns, firstSome] at heq
    split at heq
    case h_1 r hm0 =>
      simp only [Option.some.injEq] at heq
      subst heq
      have hmm := match_zero_sideCond_mem _ _ _ _ _ _ _ _ _ _ hm0
      have hd1 : ∀ s ∈ d1, cHolds (2 ^ w) ρ s :=
        fun s hs => hside s (hmm s (by simp [hs]))
      have hd2 : ∀ s ∈ d2, cHolds (2 ^ w) ρ s :=
        fun s hs => hside s (hmm s (by simp [hs]))
      obtain ⟨hLv, -, -, -, -, -⟩ :=
        decompose_sound (2 ^ w) hM0 σ ρ hagree v L hwfL a1 e1 b1 d1 h1 hd1
      obtain ⟨hRv, -, -, -, -, -⟩ :=
        decompose_sound (2 ^ w) hM0 σ ρ hagree v R hwfR a2 e2 b2 d2 h2 hd2
      exact match_zero_sound (2 ^ w) hM ρ c L R hcns hgcd (ρ v) hx
        a1 b1 e1 a2 b2 e2 _ _ hm0 hLv hRv hmem
    case h_2 hm0 =>
    split at heq
    case h_1 r hm1 =>
      simp only [Option.some.injEq] at heq
      subst heq
      have hmm := match_max_sideCond_mem _ _ _ _ _ _ _ _ _ _ hm1
      have hd1 : ∀ s ∈ d1, cHolds (2 ^ w) ρ s :=
        fun s hs => hside s (hmm s (by simp [hs]))
      have hd2 : ∀ s ∈ d2, cHolds (2 ^ w) ρ s :=
        fun s hs => hside s (hmm s (by simp [hs]))
      obtain ⟨hLv, -, -, -, -, -⟩ :=
        decompose_sound (2 ^ w) hM0 σ ρ hagree v L hwfL a1 e1 b1 d1 h1 hd1
      obtain ⟨hRv, -, -, -, -, -⟩ :=
        decompose_sound (2 ^ w) hM0 σ ρ hagree v R hwfR a2 e2 b2 d2 h2 hd2
      exact match_max_sound (2 ^ w) hM ρ c L R hcns hgcd (ρ v) hx
        a1 b1 e1 a2 b2 e2 _ _ hm1 hLv hRv hmem
    case h_2 hm1 =>
    split at heq
    case h_1 r hm2 =>
      simp only [Option.some.injEq] at heq
      subst heq
      have hmm := match_linear1_sideCond_mem _ _ _ _ _ _ _ _ _ _ hm2
      have hd1 : ∀ s ∈ d1, cHolds (2 ^ w) ρ s :=
        fun s hs => hside s (hmm s (by simp [hs]))
      have hd2 : ∀ s ∈ d2, cHolds (2 ^ w) ρ s :=
        fun s hs => hside s (hmm s (by simp [hs]))
      obtain ⟨hLv, -, -, hLa, hLbM, -⟩ :=
        decompose_sound (2 ^ w) hM0 σ ρ hagree v L hwfL a1 e1 b1 d1 h1 hd1
      obtain ⟨hRv, -, hRval, -, hRbM, hRwf⟩ :=
        decompose_sound (2 ^ w) hM0 σ ρ hagree v R hwfR a2 e2 b2 d2 h2 hd2
      exact match_linear1_sound (2 ^ w) hM ρ c L R hcns (ρ v) hx
        a1 b1 e1 a2 b2 e2 _ _ hm2 hLv hRv hLa hLbM hRbM hRval hRwf hmem
    case h_2 hm2 =>
    split at heq
    case h_1 r hm3 =>
      simp only [Option.some.injEq] at heq
      subst heq
      have hmm := match_linear2_sideCond_mem _ _ _ _ _ _ _ _ _ _ hm3
      have hd1 : ∀ s ∈ d1, cHolds (2 ^ w) ρ s :=
        fun s hs => hside s (hmm s (by simp [hs]))
      have hd2 : ∀ s ∈ d2, cHolds (2 ^ w) ρ s :=
        fun s hs => hside s (hmm s (by simp [hs]))
      obtain ⟨hLv, -, -, -, hLbM, -⟩ :=
        decompose_sound (2 ^ w) hM0 σ ρ hagree v L hwfL a1 e1 b1 d1 h1 hd1
      obtain ⟨hRv, -, -, hRa, hRbM, -⟩ :=
        decompose_sound (2 ^ w) hM0 σ ρ hagree v R hwfR a2 e2 b2 d2 h2 hd2
      exact match_linear2_sound (2 ^ w) hM ρ c L R hcns (ρ v) hx
        a1 b1 e1 a2 b2 e2 _ _ hm3 hLv hRv hRa hLbM hRbM hmem
    case h_2 hm3 =>
    split at heq
    case h_1 r hm4 =>
      simp only [Option.some.injEq] at heq
      subst heq
      have hmm := match_linear3_sideCond_mem _ _ _ _ _ _ _ _ _ _ hm4
      have hd1 : ∀ s ∈ d1, cHolds (2 ^ w) ρ s :=
        fun s hs => hside s (hmm s (by simp [hs]))
      have hd2 : ∀ s ∈ d2, cHolds (2 ^ w) ρ s :=
        fun s hs => hside s (hmm s (by simp [hs]))
      obtain ⟨hLv, -, -, hLa, hLbM, -⟩ :=
        decompose_sound (2 ^ w) hM0 σ ρ hagree v L hwfL a1 e1 b1 d1 h1 hd1
      obtain ⟨hRv, -, -, -, hRbM, -⟩ :=
        decompose_sound (2 ^ w) hM0 σ ρ hagree v R hwfR a2 e2 b2 d2 h2 hd2
      exact match_linear3_sound (2 ^ w) hM ρ c L R hcns (ρ v) hx
        a1 b1 e1 a2 b2 e2 _ _ hm4 hLv hRv hLa hLbM hRbM hmem
    case h_2 hm4 =>
    split at heq
    case h_1 r hm5 =>
      simp only [Option.some.injEq] at heq
      subst heq
      exact absurd (match_linear4_coeff _ _ _ _ _ _ _ _ _ _ hm5) hcoeff
    case h_2 hm5 => exact absurd heq (by simp)
  · -- UMUL_OVFL path
    rw [hcns] at hwf
    obtain ⟨hwfP, hwfQ⟩ := hwf
    rcases h1 : linear_decompose (2 ^ w) σ v P with ⟨ok1, a1, e1, b1, d1⟩
    rcases h2 : linear_decompose (2 ^ w) σ v Q with ⟨ok2, a2, e2, b2, d2⟩
    simp only [get_interval, hcns] at h
    unfold get_interval_umul_ovfl at h
    rw [h1, h2] at h
    dsimp only [] at h
    split at h
    case isTrue hsw =>
      have hmm := umul_core1_sideCond_mem _ _ _ _ _ _ _ _ _ _ _ _ _ h
      have hd1 : ∀ s ∈ d1, cHolds (2 ^ w) ρ s :=
        fun s hs => hside s (hmm s (by simp [hs]))
      have hd2 : ∀ s ∈ d2, cHolds (2 ^ w) ρ s :=
        fun s hs => hside s (hmm s (by simp [hs]))
      refine umul_core1_sound (2 ^ w) hM ρ c P Q Q P hcns (ρ v) hx _ fi' _
        ok2 a2 e2 b2 ok1 a1 e1 b1 h rfl ?_ ?_ (Nat.mul_comm _ _) hside hmem
      · intro hok2
        rw [hok2] at h2
        obtain ⟨q1, q2, -, -, q5, -⟩ :=
          decompose_sound (2 ^ w) hM0 σ ρ hagree v Q hwfQ a2 e2 b2 d2 h2 hd2
        exact ⟨q1, q2, q5⟩
      · intro hok1
        rw [hok1] at h1
        obtain ⟨q1, q2, -, -, q5, -⟩ :=
          decompose_sound (2 ^ w) hM0 σ ρ hagree v P hwfP a1 e1 b1 d1 h1 hd1
        exact ⟨q1, q2, q5⟩
    case isFalse hsw =>
      have hmm := umul_core1_sideCond_mem _ _ _ _ _ _ _ _ _ _ _ _ _ h
      have hd1 : ∀ s ∈ d1, cHolds (2 ^ w) ρ s :=
        fun s hs => hside s (hmm s (by simp [hs]))
      have hd2 : ∀ s ∈ d2, cHolds (2 ^ w) ρ s :=
        fun s hs => hside s (hmm s (by simp [hs]))
      refine umul_core1_sound (2 ^ w) hM ρ c P Q P Q hcns (ρ v) hx _ fi' _
        ok1 a1 e1 b1 ok2 a2 e2 b2 h rfl ?_ ?_ rfl hside hmem
      · intro hok1
        rw [hok1] at h1
        obtain ⟨q1, q2, -, -, q5, -⟩ :=
          decompose_sound (2 ^ w) hM0 σ ρ hagree v P hwfP a1 e1 b1 d1 h1 hd1
        exact ⟨q1, q2, q5⟩
      · intro hok2
        rw [hok2] at h2
        obtain ⟨q1, q2, -, -, q5, -⟩ :=
          decompose_sound (2 ^ w) hM0 σ ρ hagree v Q hwfQ a2 e2 b2 d2 h2 hd2
        exact ⟨q1, q2, q5⟩

/-- Counterexample for Claim C1 as stated: for `2*v ≤ 1` at width 4 the
matcher succeeds with interval `[2, 0)` and `coeff = 2` and no side
conditions; the value `v = 1` is NOT in the returned interval, yet
substituting it leaves the constraint false (`2 ≤ 1` fails): intervals
with `coeff ≠ 1` constrain `coeff * v`, not `v`. -/
theorem C1_outside_unsound_counterexample :
    (get_interval 16 4 (fun _ => none)
        (uleC (smulP 16 2 (varP 0)) (constP 16 1)) 0 {}).1 = true ∧
    (get_interval 16 4 (fun _ => none)
        (uleC (smulP 16 2 (varP 0)) (constP 16 1)) 0 {}).2.sideCond = [] ∧
    memI 16 1
      (get_interval 16 4 (fun _ => none)
        (uleC (smulP 16 2 (varP 0)) (constP 16 1)) 0 {}).2.interval = false ∧
    ¬ cHolds 16 (fun _ => 1) (uleC (smulP 16 2 (varP 0)) (constP 16 1)) := by
  decide

/-- Witness for C1 (amended): `v ≤ 5` at width 8 yields the forbidden
interval `[6, 0)` with `coeff = 1`; the model `v = 7` lies inside it and
indeed falsifies the constraint. -/
theorem C1_matcher_soundness_witness :
    ¬ cHolds (2 ^ 8) (fun _ => 7) (uleC (varP 0) (constP (2 ^ 8) 5)) :=
  C1_matcher_soundness 8 (by decide) (fun _ => none) (fun _ => 7)
    (fun _ _ hc => nomatch hc) (uleC (varP 0) (constP (2 ^ 8) 5)) 0
    (by decide) {}
    { interval := EvalInterval.proper [(6, [])] 6 [] 0
      sideCond := []
      src := [uleC (varP 0) (constP (2 ^ 8) 5)]
      deps := []
      coeff := 1
      bitWidth := 8 }
    (by decide) (by decide) (by simp) (by decide) (by decide)

end PolysatFI





